import Mathlib

set_option maxRecDepth 10000

/-!
Verification of the KeyLocker vault engine against its specification.

The Python sources (`shamir.py`, `bitfun.py`, `crypto.py`, `slots.py`) are
shallowly embedded below.  Bytes are lists of naturals (each byte a value in
`[0, 256)`), machine integers are `ℕ`/`ℤ` (Python has arbitrary precision
integers, so no wrap-around modelling is needed), the byte order is little
endian (`shared.BYTEORDER = 'little'`), and every random draw is an explicit
oracle argument (`ℕ → ℕ` streams), so that theorems quantify over all
behaviours of the random source.  Python `while` loops are embedded with
explicit fuel; where the source bounds the loop (`int(1e5)` tries) the fuel is
that bound, otherwise the fuel is universally quantified and exhaustion maps
to `Option.none` (in Python: unbounded recursion, which dies with
`RecursionError`).  Python `//` and `%` on integers are floor division and
floor modulus; every use in the sources has a positive divisor, where they
agree with Lean's `Int.ediv` / `Int.emod` (written `/` and `%` on `ℤ`).

External collaborators (spec §6) are abstract parameters collected in `Env`:
the block cipher appears as its AES-OFB keystream (OFB encryption and
decryption are both exactly XOR with a plaintext-independent keystream),
SHA-512 as an arbitrary digest function, and the pycrypto prime generator as
a deterministic function of the bit length and the seed material it is handed.
Console output, timing, progress reporting and the in-memory wiping of
buffers (`wipe_bytes`, `destroy`, the 99 decoy interpolations after a
successful Shamir recovery) have no observable effect on return values or on
the file, and are omitted.
-/

namespace KeyLockerSpec

/-- Byte strings: lists of naturals (each in `[0, 256)` where it matters). -/
abbrev Bytes := List ℕ

/-- `bitfun.from_bytes(src)` = `int.from_bytes(src, 'little')`. -/
def from_bytes : Bytes → ℕ
  | [] => 0
  | b :: rest => b + 256 * from_bytes rest

/-- `int.to_bytes(count, 'little')`: serialize to exactly `count` bytes
(little endian).  Python raises `OverflowError` when the integer does not fit;
the embedding truncates, and theorems that depend on faithfulness carry the
bound `n < 256 ^ count` instead. -/
def to_bytes_le : ℕ → ℕ → Bytes
  | _, 0 => []
  | n, c + 1 => n % 256 :: to_bytes_le (n / 256) c

/-- `bitfun.to_bytes(integer)` with the default `count=0`: one byte for values
below 256, otherwise the minimal number of base-256 digits
(`math.ceil(math.log(integer + 1, 256))` computed exactly; `digits_fuel` is a
fuel-structured base-256 digit counter). -/
def digits_fuel (b : ℕ) : ℕ → ℕ → ℕ
  | 0, _ => 1
  | fuel + 1, n => if n < b then 1 else 1 + digits_fuel b fuel (n / b)

/-- Number of base-`b` digits of `n` (1 for `n < b`). -/
def digit_count (b n : ℕ) : ℕ := digits_fuel b n n

/-- `bitfun.to_bytes(integer)` with `count=0`. -/
def to_bytes_var (n : ℕ) : Bytes :=
  if n < 256 then [n] else to_bytes_le n (digit_count 256 n)

/-- Modelled from the spec: `sd.common.chunk_up` (the `sd/common.py` helper is
not among the sources).  Per §4.3 the VBA capacity is "rounded up to a
multiple of 64", and `crypto.py` documents the same helper inline as
`((length - 1) // 64 + 1) * 64`. -/
def chunk_up (n size : ℕ) : ℕ := ((n - 1) / size + 1) * size

/-- Modelled from the spec: `sd.common.randint(a, b)` (not among the
sources); §4.5 describes it as "uniform in [1, slot_max−1]", an
inclusive-range uniform draw.  The oracle value `r` selects the outcome. -/
def randint_incl (a b r : ℕ) : ℕ := a + r % (b - a + 1)

/-- A window of an oracle byte stream: `n` bytes starting at stream
position `off` (each reduced to a byte).  Models `get_random(n)` /
`os.urandom(n)`: every byte string of length `n` is a possible outcome. -/
def rand_bytes (s : ℕ → ℕ) (off n : ℕ) : Bytes :=
  (List.range n).map (fun i => s (off + i) % 256)

/-- Oracle-driven permutation (models `rand.shuffle` / `rand.sample(l, len(l))`):
a Fisher–Yates style selection where the oracle chooses which remaining
element comes next.  Every permutation of the input is a possible outcome and
every outcome is a permutation (`apply_perm_sel_perm`). -/
def apply_perm_sel (σ : ℕ → ℕ) : ℕ → List ℕ → List ℕ
  | 0, _ => []
  | fuel + 1, l =>
      if l.length = 0 then [] else
      let i := σ fuel % l.length
      l.getD i 0 :: apply_perm_sel σ fuel (l.eraseIdx i)

/-- Oracle-driven permutation of a list of naturals. -/
def apply_perm (σ : ℕ → ℕ) (l : List ℕ) : List ℕ := apply_perm_sel σ l.length l

/-! ## `shamir.py` : the Shamir engine -/

namespace Shamir

/-- `shamir.randint(num)` is `secrets.randbelow(num + 1)`: a uniform draw from
the closed interval `[0, num]`.  The oracle value `r` selects the outcome;
every value in `[0, num]` is reachable (take `r` itself) and no other value
is. -/
def randint (num r : ℕ) : ℕ := r % (num + 1)

/-- The `minimum - 1` random polynomial coefficients drawn by
`shamir.make_shares` (the tail of `poly` before reversal), each drawn by
`randint(prime)`. -/
def shamir_coeffs (minimum prime : ℕ) (r : ℕ → ℕ) : List ℕ :=
  (List.range (minimum - 1)).map (fun j => randint prime (r j))

/-- Horner evaluation with reduction mod `prime` at every step, exactly the
inner loop of `shamir.make_shares`:
`total *= x; total += coeff; total %= prime` over the reversed
coefficient list. -/
def horner_mod (poly : List ℕ) (x prime : ℕ) : ℕ :=
  poly.foldl (fun total coeff => (total * x + coeff) % prime) 0

/-- `shamir.make_shares` before serialization: the share for index
`count + 1` (`count` in `range(shares)`) is the sharing polynomial evaluated
at `count + 1` mod `prime`. -/
def make_shares_int (minimum shares prime : ℕ) (secret : Bytes) (r : ℕ → ℕ) : List ℕ :=
  let poly := (from_bytes secret :: shamir_coeffs minimum prime r).reverse
  (List.range shares).map (fun count => horner_mod poly (count + 1) prime)

/-- `shamir.make_shares(minimum, shares, prime, secret, data_len)`: each share
integer serialized to `data_len` bytes, little endian. -/
def make_shares (minimum shares prime : ℕ) (secret : Bytes) (data_len : ℕ) (r : ℕ → ℕ) :
    List Bytes :=
  (make_shares_int minimum shares prime secret r).map (fun t => to_bytes_le t data_len)

/-- The extended-Euclidean loop of `shamir._divmod`, with explicit fuel
(structural recursion so the kernel can evaluate it).  The loop variable
`prime` is a natural: it starts at the (positive) field modulus and every
later value is a floor remainder by a positive number, hence nonnegative.
Fuel exhaustion never occurs when `prime < fuel`, since `prime` strictly
decreases (see `egcd_fuel_spec`). -/
def egcd_fuel : ℕ → ℤ → ℕ → ℤ → ℤ → ℤ → ℤ → ℤ × ℤ
  | 0, den, _, _, lastx, _, _ => (den, lastx)
  | fuel + 1, den, prime, x, lastx, y, lasty =>
      if prime = 0 then (den, lastx)
      else
        egcd_fuel fuel (prime : ℤ) ((den % (prime : ℤ)).toNat)
          (lastx - den / (prime : ℤ) * x) x (lasty - den / (prime : ℤ) * y) y

/-- `shamir._divmod(num, den, prime)`: `num * last_x` where `last_x` comes
from the extended-Euclidean loop on `(den, prime)`. -/
def divmod_sh (num den : ℤ) (prime : ℕ) : ℤ :=
  num * (egcd_fuel (prime + 1) den prime 0 1 1 0).2

/-- `shamir.interpolate(prime, indexes, values)`: Lagrange interpolation at
`x = 0` using big-integer arithmetic and `_divmod` for modular division. -/
def interpolate (prime : ℕ) (indexes values : List ℤ) : ℤ :=
  let n := indexes.length
  let nums := (List.range n).map (fun c => ((indexes.eraseIdx c).map (fun o => 0 - o)).prod)
  let dens := (List.range n).map
    (fun c => ((indexes.eraseIdx c).map (fun o => indexes.getD c 0 - o)).prod)
  let den := dens.prod
  let total := ((List.range n).map (fun c =>
    divmod_sh (nums.getD c 0 * den * values.getD c 0 % (prime : ℤ)) (dens.getD c 0) prime)).sum
  (divmod_sh total den prime + (prime : ℤ)) % (prime : ℤ)

/-- `shamir.get_combos(share_c, maximum)`: for each `minimum` in
`1..maximum`, shuffle `[1..share_c]` (oracle `σ minimum`) and yield every
`minimum`-element combination, each sorted.  `itertools.combinations` yields
the length-`k` subsequences of the shuffled sample; the embedding enumerates
the same combinations via `List.sublistsLen` (the enumeration order differs,
but the shuffle oracle already makes the order arbitrary, and the theorems
below are insensitive to it).  Progress reporting is omitted. -/
def get_combos (σ : ℕ → ℕ → ℕ) (share_c maximum : ℕ) : List (List ℕ) :=
  ((List.range' 1 maximum).map (fun minimum =>
    let sample := apply_perm (σ minimum) (List.range' 1 share_c)
    (List.sublistsLen minimum sample).map
      (fun combo => combo.mergeSort (fun a b => decide (a ≤ b))))).flatten

end Shamir

/-! ## `bitfun.py` : byte-array primitives -/

namespace Bitfun

/-- `bitfun.copy_bytearray(src, target, start, stop, tstart)` (`stop = 0`
means "to the end of `src`"); the copied range is clamped so it never runs
past the end of `target`, exactly as in the source. -/
def copy_bytearray (src target : Bytes) (start stop tstart : ℕ) : Bytes :=
  let stop1 := if stop = 0 then src.length else stop
  let stop2 := if stop1 - start + tstart > target.length
    then target.length - tstart + start else stop1
  let chunk := (src.drop start).take (stop2 - start)
  target.take tstart ++ chunk ++ target.drop (tstart + chunk.length)

/-- External collaborators consumed by the core (spec §6), as abstract
deterministic functions:
* `keystream key iv i` — byte `i` of the AES-OFB keystream for `(key, IV)`;
  OFB encryption and decryption are both XOR against this stream, and the
  stream does not depend on the plaintext.
* `sha512` — the SHA-512 digest of a byte string.
* `next_prime bits key iv root` — the prime returned by pycrypto's
  `getPrime(bits, ran_generator)` where `ran_generator` is the AES-OFB
  stream determined by `(key, iv, root)` as built in `crypto.get_prime`;
  deterministic in its arguments. -/
structure Env where
  keystream : Bytes → Bytes → ℕ → ℕ
  sha512 : Bytes → Bytes
  next_prime : ℕ → Bytes → Bytes → Bytes → ℕ

/-- `bitfun.ABA`: `<8-byte checksum> <1-byte length> <data> <padding>` held in
a mutable array `arr`, with `endPos` the end of the live data (`self.end`).
The bookkeeping fields `datas`/`updated` (caches of `data()` results kept
only so they can be wiped) are omitted. -/
structure ABA where
  arr : Bytes
  seed : Bytes
  endPos : ℕ
  deriving DecidableEq

/-- `ABA.chk_len`. -/
def ABA.chk_len : ℕ := 8

/-- `ABA.header = chk_len + 1`. -/
def ABA.header : ℕ := ABA.chk_len + 1

/-- `ABA.start`: where the data begins. -/
def ABA.start : ℕ := ABA.header

/-- `ABA.data()` (without checksum): the live data region `arr[start:end]`. -/
def ABA.data (a : ABA) : Bytes := (a.arr.drop ABA.start).take (a.endPos - ABA.start)

/-- `ABA.checksum()`: first 8 bytes of `sha512(seed ‖ data)` (`sha512(data)`
when the seed is empty). -/
def ABA.checksum (env : Env) (a : ABA) : Bytes :=
  if a.seed = [] then (env.sha512 a.data).take ABA.chk_len
  else (env.sha512 (a.seed ++ a.data)).take ABA.chk_len

/-- `ABA.prepend()`: write `checksum ‖ to_bytes(len)` at the front.  The
`error` branch (data longer than 255) is unreachable at every embedded call
site (the constructor enforces `size - header ≤ 255`). -/
def ABA.prepend (env : Env) (a : ABA) : ABA :=
  { a with arr := copy_bytearray (a.checksum env ++ to_bytes_var (a.endPos - ABA.start)) a.arr 0 0 0 }

/-- `ABA.read(src)`: append `src` at the current end, then re-`prepend`. -/
def ABA.read (env : Env) (a : ABA) (src : Bytes) : ABA :=
  let a1 : ABA := { a with arr := copy_bytearray src a.arr 0 0 a.endPos,
                           endPos := a.endPos + src.length }
  a1.prepend env

/-- `ABA(src, size, seed)` with `raw=False` (the `__init__` constructor).
For nonempty `src`: grow `size` to a multiple of itself via `chunk_up` if the
payload plus header overflows, fail (`ValueError`) when `size - header > 255`,
else fill a zero array of length `size` and `read` the payload in.
For empty `src`, Python's `__init__` returns without ever creating
`self.arr`; the very next operation on the object (`scramble`, `data`, …)
then raises `AttributeError`, so the embedding reports failure (`none`)
already at construction. -/
def ABA.mk_new (env : Env) (src : Bytes) (size : ℕ) (seed : Bytes) : Option ABA :=
  if src.length = 0 then none
  else
    let size := if src.length + ABA.header > size then chunk_up (src.length + ABA.header) size
      else size
    if size - ABA.header > 255 then none
    else
      let a : ABA := { arr := List.replicate size 0, seed := seed, endPos := ABA.start }
      some (a.read env src)

/-- `ABA(src, raw=True)`: wrap raw bytes; `end` keeps the class default
`start`. -/
def ABA.mk_raw (src : Bytes) : ABA := { arr := src, seed := [], endPos := ABA.start }

/-- `ABA.read_lb()`: the length byte `arr[chk_len]`.  On an array shorter
than 9 bytes Python would raise `IndexError`; the embedding reads 0 and the
subsequent bounds check in `validate` then fails (theorems whose runs could
reach this divergence carry a hypothesis excluding it). -/
def ABA.read_lb (a : ABA) : ℕ := a.arr.getD ABA.chk_len 0

/-- `ABA.validate()`: bounds-check the embedded length byte, recompute the
checksum over that range and compare with the stored checksum; on success the
updated `end` is kept, on failure the state is unchanged. -/
def ABA.validate (env : Env) (a : ABA) : Bool × ABA :=
  let lb := a.read_lb
  let e := ABA.header + lb
  if e > a.arr.length then (false, a)
  else
    let a1 : ABA := { a with endPos := e }
    if a1.checksum env = a.arr.take ABA.chk_len then (true, a1) else (false, a)

/-- `ABA.scramble(src)`: overwrite everything from `end` on with `src`
(clamped to the array).  Callers that use the default `src=None` pass a
freshly drawn oracle byte string of exactly the padding size. -/
def ABA.scramble (a : ABA) (src : Bytes) : ABA :=
  { a with arr := copy_bytearray src a.arr 0 0 a.endPos }

/-- A reserved slice `phash[start:stop]`. -/
structure Slice where
  start : ℕ
  stop : ℕ
  deriving DecidableEq

/-- `bitfun.ByteTracker`: reserves non-overlapping slices of the hash. -/
structure ByteTracker where
  hash_len : ℕ
  num_slots : ℕ
  ptr : ℕ
  deriving DecidableEq

/-- `ByteTracker.reserve(count, slots)`: reserve `slots` consecutive slices of
`count` bytes each (`slots = none` — Python `slots=None`, or any falsy value —
means `self.num_slots`).  Raises (`none`) when the reservation would run past
the end of the hash (`ptr + 1 >= hash_len`). -/
def ByteTracker.reserve (t : ByteTracker) (count : ℕ) (slots : Option ℕ) :
    Option (List Slice × ByteTracker) :=
  let slots := slots.getD t.num_slots
  let sections := (List.range slots).map
    (fun i => Slice.mk (t.ptr + i * count) (t.ptr + (i + 1) * count))
  let ptr := t.ptr + slots * count
  if ptr + 1 ≥ t.hash_len then none
  else some (sections, { t with ptr := ptr })

end Bitfun

/-! ## `crypto.py` : crypto facade -/

namespace Crypto

open Bitfun

/-- `crypto.encrypt_data(data, key, vector)` with the default `crop=True`:
AES-OFB is XOR with the keystream, `pad` appends random bytes to a 16-byte
boundary and `crop` cuts the result back to `len(data)`, so the result is
exactly the data XOR the keystream prefix. -/
def encrypt_data (env : Env) (data key vector : Bytes) : Bytes :=
  (List.range data.length).map (fun i => data.getD i 0 ^^^ env.keystream key vector i % 256)

/-- `crypto.decrypt_data(data, key, vector, crop)`: OFB decryption is the
same XOR.  With `crop=0` the source returns the padded length; every embedded
call with `crop=0` passes data whose length is already a multiple of 16, and
the `crop=len(data)` call crops back to the input length, so length is always
preserved. -/
def decrypt_data (env : Env) (data key vector : Bytes) : Bytes :=
  (List.range data.length).map (fun i => data.getD i 0 ^^^ env.keystream key vector i % 256)

/-- `crypto.get_prime(length, ran_bytes)`: split the seed into an AES key
(\[0:32\]), an IV (\[32:48\]) and root material (\[64:\]); cycle and crop the
root to `chunk_up(length, 64)` bytes when it is shorter than `length`; hand
the resulting OFB stream to pycrypto's `getPrime(length * 8, ·)` — abstracted
as the deterministic `env.next_prime`. -/
def get_prime (env : Env) (length : ℕ) (ran_bytes : Bytes) : ℕ :=
  let root0 := ran_bytes.drop 64
  let root := if root0.length < length then
      let mult := (length - 1) / root0.length + 1
      let crop := chunk_up length 64
      ((List.replicate mult root0).flatten).take crop
    else root0
  env.next_prime (length * 8) (ran_bytes.take 32) ((ran_bytes.drop 32).take 16) root

end Crypto

/-! ## `slots.py` : the vault engine -/

namespace Slots

open Bitfun Crypto

/-- `KeyLocker.slot_len`. -/
def slot_len : ℕ := 64

/-- `KeyLocker.max_len`. -/
def max_len : ℕ := 256

/-- `KeyLocker.max_shamir = slot_len * 2`. -/
def max_shamir : ℕ := slot_len * 2

/-- `KeyLocker.max_data = 255 - ABA.header`. -/
def max_data : ℕ := 255 - ABA.header

/-- `KeyLocker.max_area`. -/
def max_area : ℕ := 1024 * 1024

/-- Number of decimal digits of `n` (`len(str(size))`). -/
def digits10 (n : ℕ) : ℕ := digits_fuel 10 n n

/-- Modelled from the spec: `sd.common.roundint(value, 4096)` (helper not
among the sources); §4.1: "if S > 16384, round to a multiple of 4096" —
modelled as rounding to the nearest multiple. -/
def roundint (value r : ℕ) : ℕ := (value + r / 2) / r * r

/-- `KeyLocker.calc_salt_size(size)`. -/
def calc_salt_size (size : ℕ) : ℕ :=
  let divisor := 8 * digits10 size
  let salt := size / divisor
  let salt_max := 10 * 1024 * 1024
  let salt := if salt > salt_max then salt_max else salt
  if salt > 4096 * 4 then roundint salt 4096 else salt

/-- The layout state computed by `KeyLocker.set_boundaries` (plus the
`shamir_mode` flag, which `set_boundaries` may clear for small files). -/
structure Boundaries where
  filesize : ℕ
  salt_len : ℕ
  area : ℕ
  storage : ℕ
  num_slots : ℕ
  shamir_mode : Bool
  slot_target : ℕ
  slot_max : ℕ
  max_reqs : ℕ
  deriving DecidableEq

/-- `KeyLocker.set_boundaries`: compute salt length, slot area, storage tail,
slot count; `error(...)` (which aborts the program) is `none`. -/
def set_boundaries (filesize : ℕ) (shamir_mode : Bool) : Option Boundaries :=
  let salt_len := calc_salt_size filesize
  let notsalt := filesize - salt_len * 2
  let area := if notsalt ≥ max_area * 2 then max_area
    else if notsalt ≥ max_area / 5 then notsalt / 2 else notsalt
  let sm := if notsalt ≥ max_area * 2 then shamir_mode
    else if notsalt ≥ max_area / 5 then shamir_mode else false
  let storage := filesize - salt_len * 2 - area
  let num_slots := (area - max_len) / slot_len
  if filesize ≠ salt_len * 2 + area + storage then none
  else if num_slots < 10 then none
  else if num_slots * slot_len + (max_len - slot_len) > area then none
  else
    let slot_target := if area ≥ 1024 * 1024 then 4 else 8
    some { filesize := filesize, salt_len := salt_len, area := area, storage := storage,
           num_slots := num_slots, shamir_mode := sm, slot_target := slot_target,
           slot_max := slot_target * 2 + 1, max_reqs := 4 }

/-- The `self.tracker` slices reserved by `KeyLocker.set_phash`. -/
structure Tracker where
  shamir_key : Slice
  key : List Slice
  shamir_vector : Slice
  vector : List Slice
  prime : Slice
  offset : List Slice
  deriving DecidableEq

/-- `KeyLocker.set_phash`: reserve, in order, the shamir key (32 bytes, one
slice), the per-slot keys (32 bytes each), the shamir IV (16, one), the
per-slot IVs (16 each), the prime seed (64 + 128, one), and the per-slot
offset slices (16 each); the tracker is created with
`ByteTracker(len(phash), slot_max + 1)`, so each per-slot reservation yields
`slot_max + 1` slices. -/
def set_phash_layout (hash_len slot_max : ℕ) : Option Tracker :=
  let t0 : ByteTracker := { hash_len := hash_len, num_slots := slot_max + 1, ptr := 0 }
  match t0.reserve 32 (some 1) with
  | none => none
  | some r1 =>
  match r1.2.reserve 32 none with
  | none => none
  | some r2 =>
  match r2.2.reserve 16 (some 1) with
  | none => none
  | some r3 =>
  match r3.2.reserve 16 none with
  | none => none
  | some r4 =>
  match r4.2.reserve (64 + 128) (some 1) with
  | none => none
  | some r5 =>
  match r5.2.reserve 16 none with
  | none => none
  | some r6 =>
    some { shamir_key := r1.1.getD 0 (Slice.mk 0 0), key := r2.1,
           shamir_vector := r3.1.getD 0 (Slice.mk 0 0), vector := r4.1,
           prime := r5.1.getD 0 (Slice.mk 0 0), offset := r6.1 }

/-- A `KeyLocker` instance: layout boundaries, the password hash, and the
tracker slices (the file handle is passed to each operation separately). -/
structure KeyLocker where
  b : Boundaries
  phash : Bytes
  tracker : Tracker
  deriving DecidableEq

/-- `KeyLocker(file, phash, shamir_mode)` construction: `set_boundaries`
followed by `set_phash` (the salt hashing in `calc_salt` only feeds Argon2,
which has already produced `phash`, so it is not modelled). -/
def mk_keylocker (filesize : ℕ) (phash : Bytes) (shamir_mode : Bool) : Option KeyLocker :=
  (set_boundaries filesize shamir_mode).bind fun b =>
    (set_phash_layout phash.length b.slot_max).map fun tr =>
      { b := b, phash := phash, tracker := tr }

/-- The bytes of `phash[slice]`. -/
def slice_of (phash : Bytes) (s : Slice) : Bytes := (phash.drop s.start).take (s.stop - s.start)

/-- `KeyLocker.get_key(seg)` for an integer `seg`: the per-slot key and IV
slices of `phash`. -/
def KeyLocker.get_key (kl : KeyLocker) (seg : ℕ) : Bytes × Bytes :=
  (slice_of kl.phash (kl.tracker.key.getD seg (Slice.mk 0 0)),
   slice_of kl.phash (kl.tracker.vector.getD seg (Slice.mk 0 0)))

/-- `KeyLocker.get_key('shamir')`: the shamir pre-encryption key and IV. -/
def KeyLocker.get_key_sh (kl : KeyLocker) : Bytes × Bytes :=
  (slice_of kl.phash kl.tracker.shamir_key, slice_of kl.phash kl.tracker.shamir_vector)

/-- `KeyLocker.get_prime(data_len)`: `crypto.get_prime` seeded with the
reserved prime slice of `phash`. -/
def KeyLocker.get_prime (kl : KeyLocker) (env : Env) (data_len : ℕ) : ℕ :=
  Crypto.get_prime env data_len (slice_of kl.phash kl.tracker.prime)

/-- `KeyLocker.get_offset(seg)`: the candidate file offset for slot `seg`.
The source asserts `tracker.offset[seg].stop < len(phash)`; that assertion
holds for every `seg ≤ slot_max` whenever `set_phash` succeeded (see
`tracker_offset_stop_lt`). -/
def KeyLocker.get_offset (kl : KeyLocker) (seg : ℕ) : ℕ :=
  let big := from_bytes (slice_of kl.phash (kl.tracker.offset.getD seg (Slice.mk 0 0)))
  big % kl.b.num_slots * slot_len + kl.b.salt_len

/-- Oracle for one call of `KeyLocker.get_slot_count`, indexed by recursion
depth: the outcomes of the two `rand.random()` comparisons, the draw behind
`randint(1, slot_max - 1)`, and the value of `rand.lognormvariate(0, sigma)`.
The lognormal sample is modelled as an arbitrary nonnegative rational (Python
floats are rationals; the theorems below use only order comparisons on the
sampled value, so exact rational arithmetic covers every float behaviour). -/
structure SlotCountOracle where
  p20 : ℕ → Bool
  p10 : ℕ → Bool
  uni : ℕ → ℕ
  logn : ℕ → ℚ

/-- The bias step of `KeyLocker.get_slot_count`: values below the target are
tripled ("bias away from small values"). -/
def scale_value (v0 target : ℚ) : ℚ := if v0 < target then v0 * 3 else v0

/-- `KeyLocker.get_slot_count(target)`: lognormal slot-count selection.
`int(value)` truncates toward zero, which on the reached branch
(`value ≥ 1`) is the floor.  The `value > slot_max` branch recurses
(`return self.get_slot_count(target)`); fuel exhaustion (`none`) corresponds
to Python's unbounded recursion. -/
def get_slot_count (o : SlotCountOracle) (slot_max target : ℕ) : ℕ → Option ℕ
  | 0 => none
  | fuel + 1 =>
      if o.p20 fuel then some target
      else if target > 6 ∧ o.p10 fuel then
        some (randint_incl 1 (slot_max - 1) (o.uni fuel))
      else
        let value := scale_value (o.logn fuel * 1 * target) target
        if value > slot_max then get_slot_count o slot_max target fuel
        else if value < 1 then some 1
        else some ⌊value⌋.toNat

/-- A file: its contents as a function from byte position to byte value (the
size lives in the `Boundaries`).  Reads and writes at the embedded call sites
always stay inside the file. -/
abbrev FileFn := ℕ → ℕ

/-- One file I/O operation performed by the engine. -/
inductive IOEvent
  | read (off len : ℕ)
  | write (off : ℕ) (data : Bytes)
  deriving DecidableEq

/-- `len` bytes of the file starting at `off`. -/
def read_file (f : FileFn) (off len : ℕ) : Bytes :=
  (List.range len).map (fun i => f (off + i))

/-- Overwrite `data` at offset `off`. -/
def write_file (f : FileFn) (off : ℕ) (data : Bytes) : FileFn :=
  fun i => if off ≤ i ∧ i < off + data.length then data.getD (i - off) 0 else f i

/-- Apply a list of writes in order. -/
def apply_writes (f : FileFn) (ws : List (ℕ × Bytes)) : FileFn :=
  ws.foldl (fun g w => write_file g w.1 w.2) f

/-- Oracle for one `KeyLocker.read_slot` call: the permutation behind
`rand.sample(range(slot_max), slot_max)` and, per recovery width, the
shuffles inside `shamir.get_combos`. -/
structure ReadOracle where
  sample : ℕ → ℕ
  combos : ℕ → ℕ → ℕ → ℕ

/-- The replicated scan of `KeyLocker.read_slot`: walk the sampled segment
order; for each segment read `max_len` bytes at its offset, OFB-decrypt with
the per-slot key, wrap raw and `validate()`.  The data of the first valid
find is kept; the scan stops early after a second valid find (which the
source only counts to decide whether to warn about missing spares, then
destroys). -/
def scan_replicated (env : Env) (kl : KeyLocker) (f : FileFn) :
    List ℕ → Option Bytes → Option Bytes × List IOEvent
  | [], acc => (acc, [])
  | seg :: rest, acc =>
      let off := kl.get_offset seg
      let blk := read_file f off max_len
      let kv := kl.get_key seg
      let a := ABA.mk_raw (decrypt_data env blk kv.1 kv.2)
      let va := a.validate env
      let ev := IOEvent.read off max_len
      if va.1 then
        match acc with
        | none => let r := scan_replicated env kl f rest (some va.2.data)
                  (r.1, ev :: r.2)
        | some v => (some v, [ev])
      else
        let r := scan_replicated env kl f rest acc
        (r.1, ev :: r.2)

/-- `KeyLocker.read_shamir(prime, shares)` with `giveup=0`: run through
`get_combos(len(shares), maximum=max_reqs)`; for each combination wrap the
interpolation result (serialized with the default variable-width
`to_bytes`) raw and `validate()`; the first valid result is returned (the
source keeps scanning for a second valid combination only to decide whether
to warn about missing spares, then discards it). -/
def read_shamir (env : Env) (kl : KeyLocker) (σ : ℕ → ℕ → ℕ) (prime : ℕ)
    (shares : List ℤ) : Option ABA :=
  (Shamir.get_combos σ shares.length kl.b.max_reqs).findSome? (fun combo =>
    let r := ABA.mk_raw (to_bytes_var
      (Shamir.interpolate prime (combo.map (fun seg => (seg : ℤ)))
        (combo.map (fun seg => shares.getD (seg - 1) 0))).toNat)
    let vr := r.validate env
    if vr.1 then some vr.2 else none)

/-- The width loop of the Shamir recovery in `KeyLocker.read_slot`: for each
candidate share width try `read_shamir`; on success decrypt the recovered
VBA's payload under the shamir key (the `crop=len(data)` decrypt). -/
def try_widths (env : Env) (o : ReadOracle) (kl : KeyLocker) (datablock : List Bytes) :
    List ℕ → ℕ → Bytes
  | [], _ => []
  | w :: rest, i =>
      let prime := kl.get_prime env w
      let shares := datablock.map (fun blk => ((from_bytes (blk.take w) : ℕ) : ℤ))
      match read_shamir env kl (o.combos i) prime shares with
      | some a =>
          let ksh := kl.get_key_sh
          decrypt_data env a.data ksh.1 ksh.2
      | none => try_widths env o kl datablock rest (i + 1)

/-- `KeyLocker.read_slot()`: replicated scan first; if nothing validates,
read all `slot_max` blocks of `max_shamir` bytes, decrypt them, and attempt
Shamir recovery at widths `slot_len` and `2*slot_len`.  Returns the payload
bytes (empty = nothing found).  The interpolation result is nonnegative
(`interpolate` ends with `(… + prime) % prime`), so the `.toNat` in
`read_shamir` is lossless. -/
def read_slot (env : Env) (o : ReadOracle) (kl : KeyLocker) (f : FileFn) :
    Bytes × List IOEvent :=
  let order := apply_perm o.sample (List.range kl.b.slot_max)
  let sc := scan_replicated env kl f order none
  match sc.1 with
  | some ret => (ret, sc.2)
  | none =>
      let datablock := (List.range kl.b.slot_max).map (fun seg =>
        let off := kl.get_offset seg
        let kv := kl.get_key seg
        decrypt_data env (read_file f off max_shamir) kv.1 kv.2)
      let tr2 := (List.range kl.b.slot_max).map (fun seg =>
        IOEvent.read (kl.get_offset seg) max_shamir)
      (try_widths env o kl datablock [slot_len, slot_len * 2] 0, sc.2 ++ tr2)

/-- A position-bounded retry loop: `retry_loop body tri fuel` runs
`body tri, body (tri+1), …` until one returns `some` or `fuel` attempts are
exhausted (Python: `for tri in range(start, bound)` with a `break`, where the
`for`-`else` arm calls `error(...)`). -/
def retry_loop {α : Type} (body : ℕ → Option α) : ℕ → ℕ → Option α
  | _, 0 => none
  | tri, fuel + 1 =>
      match body tri with
      | some a => some a
      | none => retry_loop body (tri + 1) fuel

/-- `test_offsets` inside `KeyLocker.get_valid_slots`: all consecutive
(sorted) offsets must be at least `data_len` apart.  `sd.common.chunker(l,
overlap=True)` is not among the sources; modelled from the spec (§4.8 step 6:
"the sorted activated offsets are pairwise separated by ≥ data_len, no share
may overlap its neighbor") as the list of consecutive pairs. -/
def test_offsets (offsets : List ℕ) (data_len : ℕ) : Bool :=
  (offsets.zip offsets.tail).all (fun p => decide (data_len ≤ p.2 - p.1))

/-- Per-try oracle data for `KeyLocker.get_valid_slots`. -/
structure ValidSlotsOracle where
  sc : ℕ → SlotCountOracle
  sc_fuel : ℕ → ℕ
  shuffle : ℕ → ℕ → ℕ

/-- `KeyLocker.get_valid_slots(minimum, maximum, data_len)`: up to `1e5 - 1`
tries; each try draws a slot count, builds a `maximum`-length activation
bitmap with `min(maximum, count - 1 + minimum)` ones, shuffles it, and
accepts it if the activated candidate offsets are pairwise `data_len` apart.
`none` covers both exhaustion (`error`) and a `get_slot_count` that never
terminates. -/
def get_valid_slots (o : ValidSlotsOracle) (kl : KeyLocker)
    (minimum maximum data_len : ℕ) : Option (List ℕ) :=
  retry_loop (fun tri =>
    match get_slot_count (o.sc tri) kl.b.slot_max kl.b.slot_target (o.sc_fuel tri) with
    | none => none
    | some cnt =>
        let valid_count := min maximum (cnt - 1 + minimum)
        let valid := apply_perm (o.shuffle tri)
          (List.replicate valid_count 1 ++ List.replicate (maximum - valid_count) 0)
        let offsets := ((List.range maximum).filterMap (fun idx =>
          if valid.getD idx 0 ≠ 0 then some (kl.get_offset idx) else none)).mergeSort
          (fun a b => decide (a ≤ b))
        if test_offsets offsets data_len then some valid else none) 1 99999

/-- Oracle for one `KeyLocker.write_slot` call. -/
structure WriteOracle where
  scramble1 : ℕ → ℕ
  ghost : ReadOracle
  scrub : ℕ → ℕ → ℕ
  sc_normal : SlotCountOracle
  sc_normal_fuel : ℕ
  shuffle_normal : ℕ → ℕ
  junk : ℕ → ℕ → ℕ
  sc_min : SlotCountOracle
  sc_min_fuel : ℕ
  valid : ValidSlotsOracle
  coeffs : ℕ → ℕ
  verify : ReadOracle

/-- `KeyLocker.write_normal(data)`: pick a slot count, build and shuffle an
activation bitmap of length `slot_max`, and for every activated segment
OFB-encrypt the whole VBA buffer and write it at that segment's offset.
Returns the write list (`none` = a non-terminating `get_slot_count`). -/
def write_normal (env : Env) (o : WriteOracle) (kl : KeyLocker) (data : ABA) :
    Option (List (ℕ × Bytes)) :=
  match get_slot_count o.sc_normal kl.b.slot_max kl.b.slot_target o.sc_normal_fuel with
  | none => none
  | some cnt =>
      let slots := (List.replicate cnt 1 ++ List.replicate kl.b.slot_max 0).take kl.b.slot_max
      let slots := apply_perm o.shuffle_normal slots
      some ((List.range kl.b.slot_max).filterMap (fun seg =>
        if slots.getD seg 0 ≠ 0 then
          let kv := kl.get_key seg
          some (kl.get_offset seg, encrypt_data env data.arr kv.1 kv.2)
        else none))

/-- `KeyLocker.write_shamir(data)`: pad the buffer by 64 ASCII `'0'` bytes
when its end is 64-aligned (re-prepending the checksum), derive the prime for
the buffer length, rescramble the padding until the buffer's integer value is
below the prime ("prime attitude adjustment", up to `1e5 - 1` tries), choose
the threshold `minimum` and an activation bitmap via `get_valid_slots`, make
`slot_max` shares, and write the encrypted share at each activated segment's
offset.  Returns the write list; `none` is any of the `error` exits. -/
def write_shamir (env : Env) (o : WriteOracle) (kl : KeyLocker) (data : ABA) :
    Option (List (ℕ × Bytes)) :=
  let data := if data.endPos % 64 = 0 then
      ABA.prepend env { data with arr := data.arr ++ List.replicate 64 48 }
    else data
  let data_len := data.arr.length
  let prime := kl.get_prime env data_len
  match retry_loop (fun tri =>
      let d := data.scramble (rand_bytes (o.junk tri) 0 (slot_len * 2))
      if from_bytes d.arr ≥ prime then none else some d) 1 99999 with
  | none => none
  | some data =>
      match get_slot_count o.sc_min kl.b.slot_max kl.b.slot_target o.sc_min_fuel with
      | none => none
      | some cnt =>
          let minimum := min (min (cnt + 1) kl.b.max_reqs) (kl.b.slot_max - kl.b.slot_target)
          match get_valid_slots o.valid kl minimum kl.b.slot_max data.arr.length with
          | none => none
          | some valid =>
              let shares := Shamir.make_shares minimum kl.b.slot_max prime data.arr
                data_len o.coeffs
              some ((List.range kl.b.slot_max).filterMap (fun idx =>
                if valid.getD idx 0 ≠ 0 then
                  let kv := kl.get_key idx
                  some (kl.get_offset idx, encrypt_data env (shares.getD idx []) kv.1 kv.2)
                else none))

/-- `KeyLocker.write_slot(data)` (with `testing=False`).  In order: disable
shamir mode when the payload plus header reaches `max_shamir`; wrap the
payload (pre-encrypted under the shamir key in shamir mode) in a VBA of
capacity `slot_len` and scramble its padding; trial-read the file and, if
anything is found, overwrite every candidate offset with `slot_len` random
bytes (ghost scrubbing); write replicated copies or shamir shares; re-read to
verify.  Returns `(some writes, trace)` on success and `(none, trace)` on any
failure, where `trace` is the chronological I/O trace and `writes` its write
events; the final file is `apply_writes f` of those writes. -/
def write_slot (env : Env) (o : WriteOracle) (kl : KeyLocker) (f : FileFn) (data : Bytes) :
    Option (List (ℕ × Bytes)) × List IOEvent :=
  let kl := if kl.b.shamir_mode ∧ data.length + ABA.header ≥ max_shamir then
      { kl with b := { kl.b with shamir_mode := false } } else kl
  let mdata := if kl.b.shamir_mode then
      let ksh := kl.get_key_sh
      ABA.mk_new env (encrypt_data env data ksh.1 ksh.2) slot_len []
    else ABA.mk_new env data slot_len []
  match mdata with
  | none => (none, [])
  | some d0 =>
      let d1 := d0.scramble (rand_bytes o.scramble1 0 (d0.arr.length - d0.endPos))
      let ghost := read_slot env o.ghost kl f
      let scrub_ws : List (ℕ × Bytes) := if ghost.1 ≠ [] then
          (List.range kl.b.slot_max).map (fun seg =>
            (kl.get_offset seg, rand_bytes (o.scrub seg) 0 slot_len))
        else []
      let f1 := apply_writes f scrub_ws
      let mode_ws := if kl.b.shamir_mode then write_shamir env o kl d1
        else write_normal env o kl d1
      match mode_ws with
      | none => (none, ghost.2 ++ scrub_ws.map (fun w => IOEvent.write w.1 w.2))
      | some ws =>
          let f2 := apply_writes f1 ws
          let verify := read_slot env o.verify kl f2
          let tr := ghost.2 ++ scrub_ws.map (fun w => IOEvent.write w.1 w.2) ++
            ws.map (fun w => IOEvent.write w.1 w.2) ++ verify.2
          if verify.1 ≠ [] then (some (scrub_ws ++ ws), tr) else (none, tr)

end Slots

/-- Verification-side device (not source code): the polynomial with
coefficient list `l`, constant coefficient first.  `make_shares` evaluates
exactly this polynomial (see `horner_mod_cast`). -/
noncomputable def listPoly {F : Type} [CommRing F] (l : List F) : Polynomial F :=
  l.foldr (fun a q => Polynomial.C a + Polynomial.X * q) 0

/-! ## Concrete instances used by witnesses and counterexamples

A small but structurally honest deployment: a 1000-byte vault file (the
smallest sizes keep kernel evaluation cheap; for such files `set_boundaries`
itself turns Shamir mode off), an 1400-byte all-zero password hash, and a
trivial instantiation of the abstract collaborators (`trivEnv`): an all-zero
keystream and a constant-prefix digest whose first byte is 1, so that an
all-zero block never passes validation but honestly checksummed buffers do. -/

namespace Slots

open Bitfun

/-- Concrete environment for witnesses: zero keystream, a cheap digest
(nonzero first byte), and a power-of-two-plus-one "prime" of the requested
bit size standing in for the external prime generator. -/
def trivEnv : Env :=
  { keystream := fun _ _ _ => 0,
    sha512 := fun l => [1, l.length % 256, l.headD 7, 0, 0, 0, 0, 0],
    next_prime := fun bits _ _ _ => 2 ^ (bits - 1) + 1 }

/-- Concrete read oracle (identity permutations). -/
def roW : ReadOracle := { sample := fun _ => 0, combos := fun _ _ _ => 0 }

/-- Concrete slot-count oracle: the 20% branch always hits, so
`get_slot_count` returns `target` at once. -/
def scW : SlotCountOracle :=
  { p20 := fun _ => true, p10 := fun _ => false, uni := fun _ => 0, logn := fun _ => 1 }

/-- Concrete `get_valid_slots` oracle. -/
def voW : ValidSlotsOracle := { sc := fun _ => scW, sc_fuel := fun _ => 1, shuffle := fun _ _ => 0 }

/-- Concrete write oracle (all streams zero, identity shuffles). -/
def woW : WriteOracle :=
  { scramble1 := fun _ => 0, ghost := roW, scrub := fun _ _ => 0,
    sc_normal := scW, sc_normal_fuel := 1, shuffle_normal := fun _ => 0,
    junk := fun _ _ => 0, sc_min := scW, sc_min_fuel := 1,
    valid := voW, coeffs := fun _ => 0, verify := roW }

/-- Concrete password hash: 1400 zero bytes (long enough for the tracker). -/
def phashW : Bytes := List.replicate 1400 0

/-- The boundaries `set_boundaries` computes for a 1000-byte file:
salt 31, slot area 938 (Shamir disabled: the area is below `max_area / 5`),
10 slots, slot target 8, slot max 17. -/
def bW : Boundaries :=
  { filesize := 1000, salt_len := 31, area := 938, storage := 0, num_slots := 10,
    shamir_mode := false, slot_target := 8, slot_max := 17, max_reqs := 4 }

/-- The tracker layout for `phashW` and `slot_max = 17`. -/
def trackerW : Tracker :=
  { shamir_key := Slice.mk 0 32,
    key := (List.range 18).map (fun i => Slice.mk (32 + 32 * i) (64 + 32 * i)),
    shamir_vector := Slice.mk 608 624,
    vector := (List.range 18).map (fun i => Slice.mk (624 + 16 * i) (640 + 16 * i)),
    prime := Slice.mk 912 1104,
    offset := (List.range 18).map (fun i => Slice.mk (1104 + 16 * i) (1120 + 16 * i)) }

/-- The concrete vault instance (`mk_keylocker 1000 phashW true`). -/
def klW : KeyLocker := { b := bW, phash := phashW, tracker := trackerW }

/-- The concrete file: 1000 bytes of zeros. -/
def fileW : FileFn := fun _ => 0

/-- The writes produced by a concrete successful `write_slot` call on `klW`
(used by witnesses; `getD` is harmless because the call succeeds). -/
def wsW : List (ℕ × Bytes) := (write_slot trivEnv woW klW fileW [42]).1.getD []

/-- The I/O trace of the same concrete `write_slot` call. -/
def trW : List IOEvent := (write_slot trivEnv woW klW fileW [42]).2

end Slots

/-! # Theorems

Supporting lemmas first, then the claim theorems (with their witnesses and
counterexamples). -/

/-! ## Byte primitives -/

theorem from_bytes_to_bytes_le (c : ℕ) : ∀ n : ℕ, from_bytes (to_bytes_le n c) = n % 256 ^ c := by
  induction c with
  | zero => intro n; simp [to_bytes_le, from_bytes, Nat.mod_one]
  | succ c ih =>
      intro n
      simp only [to_bytes_le, from_bytes, ih]
      rw [pow_succ, mul_comm (256 ^ c) 256, Nat.mod_mul]

theorem to_bytes_le_length (c n : ℕ) : (to_bytes_le n c).length = c := by
  induction c generalizing n with
  | zero => simp [to_bytes_le]
  | succ c ih => simp [to_bytes_le, ih]

theorem from_bytes_lt (b : Bytes) (hb : ∀ x ∈ b, x < 256) :
    from_bytes b < 256 ^ b.length := by
  induction b with
  | nil => simp [from_bytes]
  | cons a t ih =>
      have ha : a < 256 := hb a (List.mem_cons_self a t)
      have ht := ih (fun x hx => hb x (List.mem_cons_of_mem a hx))
      simp only [from_bytes, List.length_cons, pow_succ]
      calc a + 256 * from_bytes t < 256 + 256 * from_bytes t := by omega
        _ ≤ 256 * (from_bytes t + 1) := by ring_nf; omega
        _ ≤ 256 * 256 ^ t.length := by
              have : from_bytes t + 1 ≤ 256 ^ t.length := ht
              exact Nat.mul_le_mul_left 256 this
        _ = 256 ^ t.length * 256 := by ring

/-! ## Extended Euclid (`shamir._divmod`) -/

namespace Shamir

theorem int_gcd_step (den : ℤ) (prime : ℕ) :
    Int.gcd (prime : ℤ) (den % (prime : ℤ)) = Int.gcd den (prime : ℤ) := by
  have hsplit : den = (prime : ℤ) * (den / (prime : ℤ)) + den % (prime : ℤ) :=
    (Int.ediv_add_emod den (prime : ℤ)).symm
  apply Nat.dvd_antisymm
  · have h1 : (↑(Int.gcd (prime : ℤ) (den % (prime : ℤ))) : ℤ) ∣ den := by
      calc (↑(Int.gcd (prime : ℤ) (den % (prime : ℤ))) : ℤ)
          ∣ (prime : ℤ) * (den / (prime : ℤ)) + den % (prime : ℤ) :=
            dvd_add (Dvd.dvd.mul_right Int.gcd_dvd_left _) Int.gcd_dvd_right
        _ = den := hsplit.symm
    have h2 : (↑(Int.gcd (prime : ℤ) (den % (prime : ℤ))) : ℤ) ∣ (prime : ℤ) :=
      Int.gcd_dvd_left
    have := Int.dvd_gcd h1 h2
    exact_mod_cast this
  · have h1 : (↑(Int.gcd den (prime : ℤ)) : ℤ) ∣ den % (prime : ℤ) := by
      have : den % (prime : ℤ) = den - (prime : ℤ) * (den / (prime : ℤ)) :=
        Int.emod_def den (prime : ℤ)
      rw [this]
      exact dvd_sub Int.gcd_dvd_left (Dvd.dvd.mul_right Int.gcd_dvd_right _)
    have := Int.dvd_gcd (Int.gcd_dvd_right (a := den) (b := (prime : ℤ))) h1
    exact_mod_cast this

/-- Invariants carried through the extended-Euclidean loop: starting from
`den ≡ d0·lastx` and `prime ≡ d0·x (mod p0)`, the loop returns a pair whose
first component is `gcd(den, prime)` (as a nonnegative integer) and which
still satisfies the Bézout congruence. -/
theorem egcd_fuel_spec (p0 : ℕ) (d0 : ℤ) :
    ∀ (fuel : ℕ) (prime : ℕ) (den x lastx y lasty : ℤ), prime < fuel →
      den ≡ d0 * lastx [ZMOD (p0 : ℤ)] → (prime : ℤ) ≡ d0 * x [ZMOD (p0 : ℤ)] →
      (egcd_fuel fuel den prime x lastx y lasty).1 ≡
          d0 * (egcd_fuel fuel den prime x lastx y lasty).2 [ZMOD (p0 : ℤ)] ∧
        (egcd_fuel fuel den prime x lastx y lasty).1 = (Int.gcd den (prime : ℤ) : ℤ) ∨
      prime = 0 ∧ (egcd_fuel fuel den prime x lastx y lasty) = (den, lastx) := by
  intro fuel
  induction fuel with
  | zero => intro prime den x lastx y lasty hlt; omega
  | succ fuel ih =>
      intro prime den x lastx y lasty hlt hden hprime
      by_cases h0 : prime = 0
      · right
        subst h0
        exact ⟨rfl, by simp [egcd_fuel]⟩
      · left
        have hpos : 0 < (prime : ℤ) := by exact_mod_cast Nat.pos_of_ne_zero h0
        have hmodnn : 0 ≤ den % (prime : ℤ) := Int.emod_nonneg den (ne_of_gt hpos)
        have hmodlt : den % (prime : ℤ) < (prime : ℤ) := Int.emod_lt_of_pos den hpos
        have hfuel : (den % (prime : ℤ)).toNat < fuel := by omega
        have hcast : (((den % (prime : ℤ)).toNat : ℕ) : ℤ) = den % (prime : ℤ) :=
          Int.toNat_of_nonneg hmodnn
        have hden' : (prime : ℤ) ≡ d0 * x [ZMOD (p0 : ℤ)] := hprime
        have hprime' : (((den % (prime : ℤ)).toNat : ℕ) : ℤ) ≡
            d0 * (lastx - den / (prime : ℤ) * x) [ZMOD (p0 : ℤ)] := by
          rw [hcast]
          have hemod : den % (prime : ℤ) = den - (prime : ℤ) * (den / (prime : ℤ)) :=
            Int.emod_def den (prime : ℤ)
          rw [hemod]
          have h1 : den - (prime : ℤ) * (den / (prime : ℤ)) ≡
              d0 * lastx - d0 * x * (den / (prime : ℤ)) [ZMOD (p0 : ℤ)] :=
            Int.ModEq.sub hden (Int.ModEq.mul_right _ hden')
          calc den - (prime : ℤ) * (den / (prime : ℤ))
              ≡ d0 * lastx - d0 * x * (den / (prime : ℤ)) [ZMOD (p0 : ℤ)] := h1
            _ = d0 * (lastx - den / (prime : ℤ) * x) := by ring
        have hrec := ih ((den % (prime : ℤ)).toNat) (prime : ℤ)
          (lastx - den / (prime : ℤ) * x) x (lasty - den / (prime : ℤ) * y) y
          hfuel hden' hprime'
        have hunfold : egcd_fuel (fuel + 1) den prime x lastx y lasty =
            egcd_fuel fuel (prime : ℤ) ((den % (prime : ℤ)).toNat)
              (lastx - den / (prime : ℤ) * x) x (lasty - den / (prime : ℤ) * y) y := by
          simp [egcd_fuel, h0]
        rw [hunfold]
        rcases hrec with ⟨hmod, hgcd⟩ | ⟨hz, heq⟩
        · refine ⟨hmod, ?_⟩
          rw [hgcd]
          congr 1
          rw [hcast]
          exact_mod_cast int_gcd_step den prime
        · rw [heq]
          refine ⟨hden', ?_⟩
          have hmz : den % (prime : ℤ) = 0 := by
            rw [← hcast, hz]; simp
          have hdvd : (prime : ℤ) ∣ den := Int.dvd_of_emod_eq_zero hmz
          have hdvdn : prime ∣ den.natAbs := by
            have := Int.natAbs_dvd_natAbs.mpr hdvd
            simpa using this
          have hgcdn : Nat.gcd den.natAbs prime = prime :=
            Nat.dvd_antisymm (Nat.gcd_dvd_right _ _) (Nat.dvd_gcd hdvdn dvd_rfl)
          have : Int.gcd den (prime : ℤ) = prime := by
            simp [Int.gcd, hgcdn]
          rw [this]

/-- Shared correctness lemma for `shamir._divmod`: modular division.  For a
prime modulus `p` and denominator not divisible by `p`,
`den * _divmod(num, den, p) ≡ num (mod p)` — exactly the contract stated in
the `_divmod` docstring. -/
theorem divmod_correct (num den : ℤ) (p : ℕ) (hp : p.Prime) (hden : ¬ (p : ℤ) ∣ den) :
    den * divmod_sh num den p ≡ num [ZMOD (p : ℤ)] := by
  have hp0 : p ≠ 0 := hp.pos.ne'
  have hinit1 : den ≡ den * 1 [ZMOD (p : ℤ)] := by rw [mul_one]
  have hinit2 : ((p : ℕ) : ℤ) ≡ den * 0 [ZMOD (p : ℤ)] := by
    rw [mul_zero]
    exact Int.modEq_zero_iff_dvd.mpr dvd_rfl
  have hspec := egcd_fuel_spec p den (p + 1) p den 0 1 1 0 (Nat.lt_succ_self p) hinit1 hinit2
  rcases hspec with ⟨hmod, hgcd⟩ | ⟨hz, _⟩
  · set r := egcd_fuel (p + 1) den p 0 1 1 0 with hr
    have hg1 : Int.gcd den (p : ℤ) = 1 := by
      have hdvd : Int.gcd den (p : ℤ) ∣ p := by
        have : (↑(Int.gcd den (p : ℤ)) : ℤ) ∣ (p : ℤ) := Int.gcd_dvd_right
        exact_mod_cast this
      rcases (Nat.Prime.eq_one_or_self_of_dvd hp _ hdvd) with h1 | hp'
      · exact h1
      · exfalso
        apply hden
        have : (↑(Int.gcd den (p : ℤ)) : ℤ) ∣ den := Int.gcd_dvd_left
        rw [hp'] at this
        exact_mod_cast this
    rw [hg1] at hgcd
    rw [hgcd] at hmod
    have hbez : den * r.2 ≡ 1 [ZMOD (p : ℤ)] := by
      simpa using hmod.symm
    have : num * (den * r.2) ≡ num * 1 [ZMOD (p : ℤ)] := Int.ModEq.mul_left num hbez
    calc den * divmod_sh num den p = num * (den * r.2) := by
          rw [divmod_sh]; ring
      _ ≡ num * 1 [ZMOD (p : ℤ)] := this
      _ = num := by ring
  · exact absurd hz hp0

end Shamir

/-! ## Supporting lemmas on lists and layouts -/

theorem getD_range_map {α : Type} (f : ℕ → α) (n i : ℕ) (hi : i < n) (d : α) :
    ((List.range n).map f).getD i d = f i := by
  rw [List.getD_eq_getElem?_getD]
  simp [List.getElem?_range, hi]

/-! ## Polynomial reading of `make_shares` and correctness of `interpolate`
(verification-side: these lemmas relate the source functions to Mathlib's
Lagrange interpolation) -/

theorem listPoly_eval {F : Type} [CommRing F] (l : List F) (x : F) :
    (listPoly l).eval x = l.foldr (fun a acc => a + x * acc) 0 := by
  induction l with
  | nil => simp [listPoly]
  | cons a t ih =>
      show (Polynomial.C a + Polynomial.X * listPoly t).eval x = a + x * _
      rw [← ih]
      simp

theorem listPoly_degree_lt {F : Type} [CommRing F] (l : List F) :
    (listPoly l).degree < (l.length : WithBot ℕ) := by
  induction l with
  | nil => simpa [listPoly] using WithBot.bot_lt_coe 0
  | cons a t ih =>
      show (Polynomial.C a + Polynomial.X * listPoly t).degree < ((t.length + 1 : ℕ) : WithBot ℕ)
      apply lt_of_le_of_lt (Polynomial.degree_add_le _ _)
      apply max_lt
      · exact lt_of_le_of_lt Polynomial.degree_C_le (by exact_mod_cast Nat.succ_pos t.length)
      · apply lt_of_le_of_lt (Polynomial.degree_mul_le _ _)
        have h1 : ((t.length + 1 : ℕ) : WithBot ℕ) = 1 + (t.length : WithBot ℕ) := by
          push_cast
          ring
        rw [h1]
        apply lt_of_le_of_lt (add_le_add_right Polynomial.degree_X_le _)
        exact WithBot.add_lt_add_left (by simp) ih

theorem horner_fold_lt (p x : ℕ) (hp : 0 < p) :
    ∀ (l : List ℕ) (init : ℕ), init < p →
      l.foldl (fun total coeff => (total * x + coeff) % p) init < p := by
  intro l
  induction l with
  | nil => intro init h; exact h
  | cons a t ih => intro init h; exact ih _ (Nat.mod_lt _ hp)

theorem horner_mod_lt (p x : ℕ) (hp : 0 < p) (l : List ℕ) :
    Shamir.horner_mod l x p < p :=
  horner_fold_lt p x hp l 0 hp

theorem horner_foldr_cast (p x : ℕ) : ∀ (l : List ℕ),
    ((l.foldr (fun coeff total => (total * x + coeff) % p) 0 : ℕ) : ZMod p) =
      l.foldr (fun a acc => ((a : ℕ) : ZMod p) + ((x : ℕ) : ZMod p) * acc) 0 := by
  intro l
  induction l with
  | nil => simp
  | cons a t ih =>
      simp only [List.foldr_cons]
      rw [ZMod.natCast_mod]
      push_cast
      rw [ih]
      ring

theorem horner_mod_cast (p : ℕ) (l : List ℕ) (x : ℕ) :
    ((Shamir.horner_mod l.reverse x p : ℕ) : ZMod p) =
      (listPoly (l.map (fun a : ℕ => (a : ZMod p)))).eval (x : ZMod p) := by
  rw [listPoly_eval, Shamir.horner_mod, List.foldl_reverse, List.foldr_map]
  exact horner_foldr_cast p x l

theorem getD_mem {α : Type} (l : List α) (i : ℕ) (d : α) (hi : i < l.length) :
    l.getD i d ∈ l := by
  rw [List.getD_eq_getElem?_getD, List.getElem?_eq_getElem hi]
  exact List.getElem_mem hi

theorem map_eraseIdx {α β : Type} (f : α → β) : ∀ (l : List α) (i : ℕ),
    (l.eraseIdx i).map f = (l.map f).eraseIdx i := by
  intro l
  induction l with
  | nil => intro i; simp
  | cons a t ih =>
      intro i
      cases i with
      | zero => simp
      | succ j => simp [List.eraseIdx, ih j]

theorem toFinset_eraseIdx {α : Type} [DecidableEq α] : ∀ (l : List α) (c : ℕ) (d : α),
    l.Nodup → c < l.length →
    (l.eraseIdx c).toFinset = l.toFinset.erase (l.getD c d) := by
  intro l
  induction l with
  | nil => intro c d _ hc; simp at hc
  | cons a t ih =>
      intro c d hnd hc
      rcases List.nodup_cons.mp hnd with ⟨ha, hnt⟩
      cases c with
      | zero =>
          simp only [List.eraseIdx, List.toFinset_cons, List.getD_cons_zero]
          rw [Finset.erase_insert (by simpa using ha)]
      | succ j =>
          have hj : j < t.length := by simpa using hc
          simp only [List.eraseIdx, List.toFinset_cons, List.getD_cons_succ]
          rw [ih j d hnt hj]
          have hne : a ≠ t.getD j d := by
            intro h
            exact ha (h ▸ getD_mem t j d hj)
          rw [Finset.erase_insert_of_ne hne]

theorem map_getD_range {α : Type} (l : List α) (d : α) :
    (List.range l.length).map (fun i => l.getD i d) = l := by
  apply List.ext_getElem (by simp)
  intro i h1 h2
  simp only [List.getElem_map, List.getElem_range, List.getD_eq_getElem?_getD,
    List.getElem?_eq_getElem h2]
  rfl

theorem getD_map_of_lt {α β : Type} (f : α → β) (l : List α) (c : ℕ) (hc : c < l.length)
    (d : β) (d2 : α) : (l.map f).getD c d = f (l.getD c d2) := by
  rw [List.getD_eq_getElem?_getD, List.getD_eq_getElem?_getD,
    List.getElem?_eq_getElem (by simpa using hc), List.getElem?_eq_getElem hc]
  simp

theorem intCast_emod_self (p : ℕ) (a : ℤ) : ((a % (p : ℤ) : ℤ) : ZMod p) = (a : ZMod p) := by
  rw [ZMod.intCast_eq_intCast_iff]
  exact Int.emod_emod_of_dvd a dvd_rfl

theorem divmod_cast (p : ℕ) (hp : p.Prime) (num den : ℤ)
    (hden : ((den : ZMod p)) ≠ 0) :
    ((Shamir.divmod_sh num den p : ℤ) : ZMod p) = (num : ZMod p) * ((den : ZMod p))⁻¹ := by
  haveI : Fact p.Prime := ⟨hp⟩
  have hdvd : ¬ (p : ℤ) ∣ den := fun h => hden ((ZMod.intCast_zmod_eq_zero_iff_dvd den p).mpr h)
  have h2 : ((den * Shamir.divmod_sh num den p : ℤ) : ZMod p) = ((num : ℤ) : ZMod p) :=
    (ZMod.intCast_eq_intCast_iff _ _ _).mpr (Shamir.divmod_correct num den p hp hdvd)
  push_cast at h2
  rw [eq_mul_inv_iff_mul_eq₀ hden, mul_comm]
  exact h2

theorem interpolate_recovers (p : ℕ) (hp : p.Prime) (B : ℕ) (C : List ℕ)
    (vals : List ℤ) (f : Polynomial (ZMod p))
    (hC : C.Nodup) (hmem : ∀ i ∈ C, 1 ≤ i ∧ i ≤ B) (hB : B < p)
    (hdeg : f.degree < (C.length : WithBot ℕ))
    (hvals : ∀ c, c < C.length →
      ((vals.getD c 0 : ℤ) : ZMod p) = f.eval ((C.getD c 0 : ℕ) : ZMod p)) :
    0 ≤ Shamir.interpolate p (C.map (fun i : ℕ => (i : ℤ))) vals ∧
    Shamir.interpolate p (C.map (fun i : ℕ => (i : ℤ))) vals < (p : ℤ) ∧
    ((Shamir.interpolate p (C.map (fun i : ℕ => (i : ℤ))) vals : ℤ) : ZMod p) = f.eval 0 := by
  haveI : Fact p.Prime := ⟨hp⟩
  haveI : NeZero p := ⟨hp.pos.ne'⟩
  have hp0 : (0 : ℤ) < (p : ℤ) := by exact_mod_cast hp.pos
  set idx : List ℤ := C.map (fun i : ℕ => (i : ℤ)) with hidx
  set n := idx.length with hn
  have hnC : n = C.length := by rw [hn, hidx, List.length_map]
  set nums := (List.range n).map
    (fun c => ((idx.eraseIdx c).map (fun o => 0 - o)).prod) with hnums
  set dens := (List.range n).map
    (fun c => ((idx.eraseIdx c).map (fun o => idx.getD c 0 - o)).prod) with hdens
  set den := dens.prod with hden
  set total := ((List.range n).map (fun c =>
    Shamir.divmod_sh (nums.getD c 0 * den * vals.getD c 0 % (p : ℤ))
      (dens.getD c 0) p)).sum with htotal
  have hEq : Shamir.interpolate p idx vals
      = (Shamir.divmod_sh total den p + (p : ℤ)) % (p : ℤ) := rfl
  refine ⟨?_, ?_, ?_⟩
  · rw [hEq]
    exact Int.emod_nonneg _ (ne_of_gt hp0)
  · rw [hEq]
    exact Int.emod_lt_of_pos _ hp0
  rw [hEq, intCast_emod_self]
  push_cast
  rw [ZMod.natCast_self, add_zero]
  -- abbreviations for the field-level objects
  set s := C.toFinset with hs
  set v : ℕ → ZMod p := fun i => (i : ZMod p) with hv
  set Nm : ℕ → ZMod p := fun i => ∏ j ∈ s.erase i, (0 - v j) with hNm
  set Dm : ℕ → ZMod p := fun i => ∏ j ∈ s.erase i, (v i - v j) with hDm
  set G : ℕ → ZMod p := fun i => f.eval (v i) * (Nm i * (Dm i)⁻¹) with hG
  have hinj : ∀ i j : ℕ, i ∈ C → j ∈ C → v i = v j → i = j := by
    intro i j hi hj hij
    have h1 : i < p := lt_of_le_of_lt (hmem i hi).2 hB
    have h2 : j < p := lt_of_le_of_lt (hmem j hj).2 hB
    have h3 := congrArg ZMod.val hij
    rwa [hv, ZMod.val_natCast_of_lt h1, ZMod.val_natCast_of_lt h2] at h3
  have hcard : s.card = C.length := by
    rw [hs]
    exact List.toFinset_card_of_nodup hC
  -- pointwise identification of the algorithm's numerators and denominators
  have hxmem : ∀ c, c < n → C.getD c 0 ∈ C := fun c hc => getD_mem C c 0 (hnC ▸ hc)
  have hxs : ∀ c, c < n → C.getD c 0 ∈ s := fun c hc => List.mem_toFinset.mpr (hxmem c hc)
  have herase : ∀ c, idx.eraseIdx c = (C.eraseIdx c).map (fun i : ℕ => (i : ℤ)) :=
    fun c => (map_eraseIdx _ C c).symm
  have hprod_cast : ∀ (L : List ℤ),
      ((L.prod : ℤ) : ZMod p) = (L.map (fun a : ℤ => (a : ZMod p))).prod := by
    intro L
    have h1 := map_list_prod (Int.castRingHom (ZMod p)) L
    simpa using h1
  have hnum_cast : ∀ c, c < n →
      ((nums.getD c 0 : ℤ) : ZMod p) = Nm (C.getD c 0) := by
    intro c hc
    rw [hnums, getD_range_map _ _ _ hc, herase, List.map_map, hprod_cast, List.map_map]
    have hpt : ∀ j ∈ C.eraseIdx c,
        ((fun a : ℤ => (a : ZMod p)) ∘ (fun o : ℤ => 0 - o) ∘ (fun i : ℕ => (i : ℤ))) j
          = (0 - v j) := by
      intro j _
      simp [hv]
    rw [List.map_congr_left hpt, ← List.prod_toFinset _ (hC.eraseIdx c),
      toFinset_eraseIdx C c 0 hC (hnC ▸ hc), hNm]
  have hden_cast_pt : ∀ c, c < n →
      ((dens.getD c 0 : ℤ) : ZMod p) = Dm (C.getD c 0) := by
    intro c hc
    have hgetD : idx.getD c 0 = ((C.getD c 0 : ℕ) : ℤ) :=
      getD_map_of_lt _ C c (hnC ▸ hc) 0 0
    rw [hdens, getD_range_map _ _ _ hc, hgetD, herase, List.map_map, hprod_cast, List.map_map]
    have hpt : ∀ j ∈ C.eraseIdx c,
        ((fun a : ℤ => (a : ZMod p)) ∘ (fun o : ℤ => ((C.getD c 0 : ℕ) : ℤ) - o)
          ∘ (fun i : ℕ => (i : ℤ))) j = (v (C.getD c 0) - v j) := by
      intro j _
      simp [hv]
    rw [List.map_congr_left hpt, ← List.prod_toFinset _ (hC.eraseIdx c),
      toFinset_eraseIdx C c 0 hC (hnC ▸ hc), hDm]
  have hDm_ne : ∀ i ∈ s, Dm i ≠ 0 := by
    intro i hi
    rw [hDm]
    rw [Finset.prod_ne_zero_iff]
    intro j hj
    rcases Finset.mem_erase.mp hj with ⟨hji, hjs⟩
    refine sub_ne_zero.mpr ?_
    intro h
    exact hji (hinj j i (List.mem_toFinset.mp hjs) (List.mem_toFinset.mp hi) h.symm)
  have hden_cast : ((den : ℤ) : ZMod p)
      = ((List.range n).map (fun c => Dm (C.getD c 0))).prod := by
    rw [hden, hprod_cast, hdens, List.map_map]
    refine congrArg List.prod (List.map_congr_left ?_)
    intro c hc
    have hc2 := List.mem_range.mp hc
    have := hden_cast_pt c hc2
    rw [hdens, getD_range_map _ _ _ hc2] at this
    simpa using this
  have hden_ne : ((den : ℤ) : ZMod p) ≠ 0 := by
    rw [hden_cast]
    intro h
    rcases List.prod_eq_zero_iff.mp h with hmem0
    rcases List.mem_map.mp hmem0 with ⟨c, hc, hc0⟩
    exact hDm_ne _ (hxs c (List.mem_range.mp hc)) hc0
  -- cast of the accumulated total
  have hsum_cast : ∀ (L : List ℤ),
      ((L.sum : ℤ) : ZMod p) = (L.map (fun a : ℤ => (a : ZMod p))).sum := by
    intro L
    have h1 := map_list_sum (Int.castRingHom (ZMod p)) L
    simpa using h1
  have htot_cast : ((total : ℤ) : ZMod p) = (∑ i ∈ s, G i) * ((den : ℤ) : ZMod p) := by
    rw [htotal, hsum_cast, List.map_map]
    have hpt : ∀ c ∈ List.range n,
        ((fun a : ℤ => (a : ZMod p)) ∘ (fun c =>
          Shamir.divmod_sh (nums.getD c 0 * den * vals.getD c 0 % (p : ℤ))
            (dens.getD c 0) p)) c
        = G (C.getD c 0) * ((den : ℤ) : ZMod p) := by
      intro c hc
      have hc2 := List.mem_range.mp hc
      show ((Shamir.divmod_sh (nums.getD c 0 * den * vals.getD c 0 % (p : ℤ))
          (dens.getD c 0) p : ℤ) : ZMod p) = G (C.getD c 0) * ((den : ℤ) : ZMod p)
      rw [divmod_cast p hp _ _ (by rw [hden_cast_pt c hc2]; exact hDm_ne _ (hxs c hc2)),
        intCast_emod_self]
      push_cast
      rw [hnum_cast c hc2, hden_cast_pt c hc2]
      have hvc : ((vals.getD c 0 : ℤ) : ZMod p) = f.eval (v (C.getD c 0)) := by
        rw [hv]
        exact hvals c (hnC ▸ hc2)
      rw [hvc, hG]
      ring
    rw [List.map_congr_left hpt]
    rw [List.sum_map_mul_right]
    congr 1
    have hlist : ((List.range n).map fun c => G (C.getD c 0)) = C.map G := by
      rw [show ((List.range n).map fun c => G (C.getD c 0))
          = ((List.range n).map (fun c => C.getD c 0)).map G by rw [List.map_map]; rfl,
        hnC, map_getD_range C 0]
    rw [hlist, hs, List.sum_toFinset G hC]
  have hfinal : ((Shamir.divmod_sh total den p : ℤ) : ZMod p) = ∑ i ∈ s, G i := by
    rw [divmod_cast p hp _ _ hden_ne, htot_cast, mul_assoc,
      mul_inv_cancel₀ hden_ne, mul_one]
  rw [hfinal]
  -- Lagrange side: identify the sum with the interpolating polynomial at 0
  have hvinj : Set.InjOn v ↑s := by
    intro i hi j hj h
    exact hinj i j (List.mem_toFinset.mp hi) (List.mem_toFinset.mp hj) h
  have hdeg2 : f.degree < (s.card : WithBot ℕ) := by
    rw [hcard]
    exact hdeg
  have hfi := Lagrange.eq_interpolate (f := f) hvinj hdeg2
  have hbasis : ∀ i ∈ s, (Lagrange.basis s v i).eval 0 = Nm i * (Dm i)⁻¹ := by
    intro i hi
    rw [Lagrange.basis, Polynomial.eval_prod]
    have hpt : ∀ j ∈ s.erase i, (Lagrange.basisDivisor (v i) (v j)).eval 0
        = (0 - v j) * (v i - v j)⁻¹ := by
      intro j _
      rw [Lagrange.basisDivisor]
      simp only [Polynomial.eval_mul, Polynomial.eval_sub, Polynomial.eval_C, Polynomial.eval_X]
      ring
    rw [Finset.prod_congr rfl hpt, Finset.prod_mul_distrib, Finset.prod_inv_distrib]
  calc (∑ i ∈ s, G i)
      = ∑ i ∈ s, f.eval (v i) * (Lagrange.basis s v i).eval 0 := by
        refine Finset.sum_congr rfl ?_
        intro i hi
        simp only [hG]
        rw [hbasis i hi]
    _ = (Lagrange.interpolate s v (fun i => f.eval (v i))).eval 0 := by
        rw [Lagrange.interpolate_apply, Polynomial.eval_finset_sum]
        refine Finset.sum_congr rfl ?_
        intro i hi
        rw [Polynomial.eval_mul, Polynomial.eval_C]
    _ = f.eval 0 := by rw [← hfi]

namespace Bitfun

theorem reserve_spec (t : ByteTracker) (count : ℕ) (slots : Option ℕ)
    (r : List Slice × ByteTracker) (h : t.reserve count slots = some r) :
    r.1 = (List.range (slots.getD t.num_slots)).map
        (fun i => Slice.mk (t.ptr + i * count) (t.ptr + (i + 1) * count)) ∧
      r.2 = { t with ptr := t.ptr + slots.getD t.num_slots * count } ∧
      t.ptr + slots.getD t.num_slots * count + 1 < t.hash_len := by
  simp only [ByteTracker.reserve] at h
  split_ifs at h with hc
  cases h
  exact ⟨rfl, rfl, by omega⟩

end Bitfun

namespace Slots

theorem set_boundaries_spec (fs : ℕ) (sm : Bool) (b : Boundaries)
    (h : set_boundaries fs sm = some b) :
    10 ≤ b.num_slots ∧ b.num_slots * slot_len + (max_len - slot_len) ≤ b.area ∧
      b.slot_max = 2 * b.slot_target + 1 ∧ 1 ≤ b.slot_target ∧ b.max_reqs = 4 ∧
      b.salt_len = calc_salt_size fs ∧ b.filesize = fs := by
  simp only [set_boundaries, max_area, max_len, slot_len] at h
  split_ifs at h with h1 h2 h3 h4 h5 h6 h7 h8 h9 h10 h11 h12 h13 h14 <;>
    (injection h with h; subst h;
     refine ⟨?_, ?_, ?_, ?_, rfl, rfl, rfl⟩ <;>
       simp only [max_len, slot_len, max_area] <;> omega)

theorem mk_keylocker_spec (fs : ℕ) (ph : Bytes) (sm : Bool) (kl : KeyLocker)
    (h : mk_keylocker fs ph sm = some kl) :
    set_boundaries fs sm = some kl.b ∧ kl.phash = ph ∧
      set_phash_layout ph.length kl.b.slot_max = some kl.tracker := by
  unfold mk_keylocker at h
  cases hb : set_boundaries fs sm with
  | none => rw [hb] at h; simp at h
  | some b =>
      rw [hb] at h
      simp only [Option.some_bind] at h
      cases ht : set_phash_layout ph.length b.slot_max with
      | none => rw [ht] at h; simp at h
      | some tr =>
          rw [ht] at h
          simp only [Option.map_some', Option.some.injEq] at h
          subst h
          exact ⟨rfl, rfl, ht⟩

/-- The concrete instance: `mk_keylocker` on the 1000-byte file with the
all-zero 1400-byte hash yields `klW` (Shamir disabled by `set_boundaries`). -/
theorem mk_klW : mk_keylocker 1000 phashW true = some klW := by
  have hlen : phashW.length = 1400 := by simp [phashW]
  unfold mk_keylocker
  rw [show set_boundaries 1000 true = some bW from by decide]
  simp only [Option.some_bind]
  rw [hlen]
  rw [show bW.slot_max = 17 from rfl]
  rw [show set_phash_layout 1400 17 = some trackerW from by decide]
  rfl

end Slots

/-! ## Write-path lengths and the I/O frame

Auxiliary facts for the frame claim: every byte string the write path
produces is at most 256 bytes, every write lands at a candidate slot offset,
and `read_slot` emits no write events. -/

section WriteFrame

open Bitfun Crypto Slots

theorem encrypt_data_length (env : Env) (data key vector : Bytes) :
    (Crypto.encrypt_data env data key vector).length = data.length := by
  simp [Crypto.encrypt_data]

theorem rand_bytes_length (s : ℕ → ℕ) (off n : ℕ) : (rand_bytes s off n).length = n := by
  simp [rand_bytes]

theorem copy_bytearray_length (src target : Bytes) (start stop tstart : ℕ)
    (h : tstart ≤ target.length) :
    (copy_bytearray src target start stop tstart).length = target.length := by
  simp only [copy_bytearray]
  have h1 : ∀ chunk : Bytes, chunk.length ≤ target.length - tstart →
      (target.take tstart ++ chunk ++ target.drop (tstart + chunk.length)).length
        = target.length := by
    intro chunk hc
    simp only [List.length_append, List.length_take, List.length_drop]
    omega
  apply h1
  rw [List.length_take, List.length_drop]
  split_ifs <;> omega

theorem scramble_length (a : ABA) (src : Bytes) (h : a.endPos ≤ a.arr.length) :
    (a.scramble src).arr.length = a.arr.length :=
  copy_bytearray_length src a.arr 0 0 a.endPos h

theorem prepend_length (env : Env) (a : ABA) :
    (a.prepend env).arr.length = a.arr.length :=
  copy_bytearray_length _ a.arr 0 0 0 (Nat.zero_le _)

theorem read_arr_length (env : Env) (a : ABA) (src : Bytes) (h : a.endPos ≤ a.arr.length) :
    (ABA.read env a src).arr.length = a.arr.length := by
  unfold ABA.read
  rw [prepend_length]
  exact copy_bytearray_length src a.arr 0 0 a.endPos h

theorem chunk_up_ge (n s : ℕ) (hs : 0 < s) : n ≤ chunk_up n s := by
  unfold chunk_up
  have h1 := Nat.div_add_mod (n - 1) s
  have h2 := Nat.mod_lt (n - 1) hs
  have h3 : ((n - 1) / s + 1) * s = s * ((n - 1) / s) + s := by ring
  omega

theorem chunk_up_64_eq (n : ℕ) (h : n ≤ 64) : chunk_up n 64 = 64 := by
  unfold chunk_up
  rw [Nat.div_eq_of_lt (by omega)]

theorem chunk_up_le_256 (n : ℕ) (h : n ≤ 256) : chunk_up n 64 ≤ 256 := by
  unfold chunk_up
  have h1 : (n - 1) / 64 ≤ 255 / 64 := Nat.div_le_div_right (by omega)
  have h2 : (255 : ℕ) / 64 = 3 := by norm_num
  set d := (n - 1) / 64
  omega

theorem mk_new_64_spec (env : Env) (src : Bytes) (seed : Bytes) (d : ABA)
    (h : ABA.mk_new env src 64 seed = some d) :
    1 ≤ src.length ∧ src.length ≤ 247 ∧ d.endPos = src.length + ABA.header ∧
      d.arr.length = chunk_up (src.length + ABA.header) 64 ∧
      d.endPos ≤ d.arr.length ∧ d.arr.length ≤ 256 := by
  simp only [ABA.mk_new] at h
  by_cases h0 : src.length = 0
  · rw [if_pos h0] at h
    exact absurd h (by simp)
  rw [if_neg h0] at h
  set size := if src.length + ABA.header > 64 then chunk_up (src.length + ABA.header) 64 else 64
    with hsize
  by_cases hbig : size - ABA.header > 255
  · rw [if_pos hbig] at h
    exact absurd h (by simp)
  rw [if_neg hbig] at h
  injection h with h
  have hcu : size = chunk_up (src.length + ABA.header) 64 := by
    rw [hsize]
    split_ifs with hgt
    · rfl
    · rw [chunk_up_64_eq _ (by omega)]
  have hge : src.length + ABA.header ≤ size := by
    rw [hcu]
    exact chunk_up_ge _ _ (by norm_num)
  have hmul : size = ((src.length + ABA.header - 1) / 64 + 1) * 64 := by
    rw [hcu]; rfl
  have hle : size ≤ 256 := by
    have hb2 : ¬ size - ABA.header > 255 := hbig
    set k := (src.length + ABA.header - 1) / 64
    have hh : ABA.header = 9 := rfl
    omega
  set a0 : ABA := { arr := List.replicate size 0, seed := seed, endPos := ABA.start } with ha0
  have hstart : ABA.start ≤ size := by
    have hh : ABA.start = ABA.header := rfl
    omega
  have hend : (ABA.read env a0 src).endPos = src.length + ABA.header := by
    simp only [ABA.read, ABA.prepend]
    show ABA.start + src.length = src.length + ABA.header
    have hh : ABA.start = ABA.header := rfl
    omega
  have harr : (ABA.read env a0 src).arr.length = size := by
    rw [read_arr_length]
    · rw [ha0]
      simp
    · rw [ha0]
      simp only [List.length_replicate]
      exact hstart
  rw [← h]
  refine ⟨by omega, ?_, hend, by rw [harr, hcu], ?_, by rw [harr]; exact hle⟩
  · have hh : ABA.header = 9 := rfl
    omega
  · rw [hend, harr]
    exact hge

theorem retry_loop_some {α : Type} (body : ℕ → Option α) :
    ∀ (fuel tri : ℕ) (x : α), retry_loop body tri fuel = some x → ∃ t, body t = some x := by
  intro fuel
  induction fuel with
  | zero => intro tri x h; simp [retry_loop] at h
  | succ n ih =>
      intro tri x h
      rw [retry_loop] at h
      cases hb : body tri with
      | some a =>
          rw [hb] at h
          exact ⟨tri, hb.trans h⟩
      | none =>
          rw [hb] at h
          exact ih (tri + 1) x h

theorem get_offset_bounds (kl : KeyLocker) (seg : ℕ) (hpos : 0 < kl.b.num_slots) :
    kl.b.salt_len ≤ kl.get_offset seg ∧
    kl.get_offset seg + 256 ≤ kl.b.salt_len + (kl.b.num_slots * 64 + 192) := by
  simp only [KeyLocker.get_offset]
  have h1 : from_bytes (slice_of kl.phash (kl.tracker.offset.getD seg (Slice.mk 0 0)))
      % kl.b.num_slots < kl.b.num_slots := Nat.mod_lt _ hpos
  set m := from_bytes (slice_of kl.phash (kl.tracker.offset.getD seg (Slice.mk 0 0)))
      % kl.b.num_slots
  have hsl : slot_len = 64 := rfl
  constructor
  · omega
  · rw [hsl]
    omega

theorem write_normal_writes (env : Env) (o : WriteOracle) (kl : KeyLocker) (d : ABA)
    (ws : List (ℕ × Bytes)) (h : write_normal env o kl d = some ws) :
    ∀ w ∈ ws, (∃ seg, w.1 = kl.get_offset seg) ∧ w.2.length = d.arr.length := by
  unfold write_normal at h
  cases hc : get_slot_count o.sc_normal kl.b.slot_max kl.b.slot_target o.sc_normal_fuel with
  | none =>
      simp only [hc] at h
      exact Option.noConfusion h
  | some cnt =>
      simp only [hc, Option.some.injEq] at h
      subst h
      intro w hw
      rcases List.mem_filterMap.mp hw with ⟨seg, hseg, hg⟩
      split_ifs at hg with hv
      · injection hg with hg
        subst hg
        exact ⟨⟨seg, rfl⟩, encrypt_data_length env d.arr _ _⟩

theorem apply_writes_frame : ∀ (ws : List (ℕ × Bytes)) (f : FileFn) (x : ℕ),
    (∀ w ∈ ws, x < w.1 ∨ w.1 + w.2.length ≤ x) → apply_writes f ws x = f x := by
  intro ws
  induction ws with
  | nil => intro f x _; rfl
  | cons w rest ih =>
      intro f x h
      show apply_writes (write_file f w.1 w.2) rest x = f x
      rw [ih _ _ (fun u hu => h u (List.mem_cons_of_mem w hu))]
      unfold write_file
      rw [if_neg]
      have hw := h w (List.mem_cons_self w rest)
      omega

theorem make_shares_getD_length (minimum shares prime : ℕ) (secret : Bytes) (data_len : ℕ)
    (r : ℕ → ℕ) (j : ℕ) :
    ((Shamir.make_shares minimum shares prime secret data_len r).getD j []).length ≤ data_len := by
  unfold Shamir.make_shares
  by_cases hlt : j < (Shamir.make_shares_int minimum shares prime secret r).length
  · rw [getD_map_of_lt (fun t => to_bytes_le t data_len) _ j hlt [] 0]
    exact le_of_eq (to_bytes_le_length data_len _)
  · rw [List.getD_eq_default]
    · simp
    · simp only [List.length_map]
      omega

theorem write_shamir_writes (env : Env) (o : WriteOracle) (kl : KeyLocker) (d : ABA)
    (ws : List (ℕ × Bytes)) (hend : d.endPos ≤ d.arr.length)
    (h : write_shamir env o kl d = some ws) :
    ∀ w ∈ ws, (∃ seg, w.1 = kl.get_offset seg) ∧ w.2.length ≤ d.arr.length + 64 := by
  simp only [write_shamir] at h
  set data1 := if d.endPos % 64 = 0 then
      ABA.prepend env { d with arr := d.arr ++ List.replicate 64 48 } else d with hd1
  have hlen1 : data1.arr.length ≤ d.arr.length + 64 := by
    rw [hd1]
    split_ifs with hc
    · rw [prepend_length]
      simp
    · omega
  have hend1 : data1.endPos ≤ data1.arr.length := by
    rw [hd1]
    split_ifs with hc
    · show d.endPos ≤ (ABA.prepend env { d with arr := d.arr ++ List.replicate 64 48 }).arr.length
      rw [prepend_length]
      simp only [List.length_append, List.length_replicate]
      omega
    · exact hend
  set prime := kl.get_prime env data1.arr.length with hpr
  cases hr : retry_loop (fun tri =>
      if from_bytes (data1.scramble (rand_bytes (o.junk tri) 0 (slot_len * 2))).arr ≥ prime
      then none else some (data1.scramble (rand_bytes (o.junk tri) 0 (slot_len * 2)))) 1 99999 with
  | none =>
      rw [hr] at h
      exact Option.noConfusion h
  | some data2 =>
      rw [hr] at h
      have harr2 : data2.arr.length = data1.arr.length := by
        rcases retry_loop_some _ _ _ _ hr with ⟨t, hb⟩
        split_ifs at hb with hcc
        injection hb with hb
        rw [← hb]
        exact scramble_length _ _ hend1
      cases hc : get_slot_count o.sc_min kl.b.slot_max kl.b.slot_target o.sc_min_fuel with
      | none =>
          simp only [hc] at h
          exact Option.noConfusion h
      | some cnt =>
          simp only [hc] at h
          cases hv : get_valid_slots o.valid kl
              (min (min (cnt + 1) kl.b.max_reqs) (kl.b.slot_max - kl.b.slot_target))
              kl.b.slot_max data2.arr.length with
          | none =>
              simp only [hv] at h
              exact Option.noConfusion h
          | some valid =>
              simp only [hv, Option.some.injEq] at h
              subst h
              intro w hw
              rcases List.mem_filterMap.mp hw with ⟨idx, hidx, hg⟩
              split_ifs at hg with hvv
              injection hg with hg
              subst hg
              refine ⟨⟨idx, rfl⟩, ?_⟩
              rw [encrypt_data_length]
              exact le_trans (make_shares_getD_length _ _ _ _ _ _ _) hlen1

theorem chunk_up_le_128 (n : ℕ) (h : n ≤ 128) : chunk_up n 64 ≤ 128 := by
  unfold chunk_up
  have h1 : (n - 1) / 64 ≤ 127 / 64 := Nat.div_le_div_right (by omega)
  have h2 : (127 : ℕ) / 64 = 1 := by norm_num
  set k := (n - 1) / 64
  omega

theorem scan_replicated_no_writes (env : Env) (kl : KeyLocker) (f : FileFn) :
    ∀ (order : List ℕ) (acc : Option Bytes) (off : ℕ) (d : Bytes),
      IOEvent.write off d ∈ (scan_replicated env kl f order acc).2 → False := by
  intro order
  induction order with
  | nil =>
      intro acc off d h
      simp [scan_replicated] at h
  | cons seg rest ih =>
      intro acc off d h
      cases acc with
      | none =>
          simp only [scan_replicated] at h
          split_ifs at h with hv
          · rcases List.mem_cons.mp h with h1 | h2
            · exact IOEvent.noConfusion h1
            · exact ih _ _ _ h2
          · rcases List.mem_cons.mp h with h1 | h2
            · exact IOEvent.noConfusion h1
            · exact ih _ _ _ h2
      | some v =>
          simp only [scan_replicated] at h
          split_ifs at h with hv
          · rcases List.mem_cons.mp h with h1 | h2
            · exact IOEvent.noConfusion h1
            · simp at h2
          · rcases List.mem_cons.mp h with h1 | h2
            · exact IOEvent.noConfusion h1
            · exact ih _ _ _ h2

theorem read_slot_no_writes (env : Env) (o : ReadOracle) (kl : KeyLocker) (f : FileFn)
    (off : ℕ) (d : Bytes) (h : IOEvent.write off d ∈ (read_slot env o kl f).2) : False := by
  simp only [read_slot] at h
  cases hs : (scan_replicated env kl f (apply_perm o.sample (List.range kl.b.slot_max)) none).1 with
  | some ret =>
      simp only [hs] at h
      exact scan_replicated_no_writes _ _ _ _ _ _ _ h
  | none =>
      simp only [hs] at h
      rcases List.mem_append.mp h with h1 | h2
      · exact scan_replicated_no_writes _ _ _ _ _ _ _ h1
      · rcases List.mem_map.mp h2 with ⟨seg, _, hseg⟩
        exact IOEvent.noConfusion hseg

end WriteFrame

section RoundTrip

open Bitfun Crypto Slots

/-! ## Round-trip helpers (C1): permutations, scanning, honest-slot
validation, and the XOR-cancellation frame of the last write. -/

end RoundTrip

/-! ## Claim theorems -/

open Shamir Bitfun Crypto Slots

/-- C6 counterexample: the claim says every random coefficient drawn by
`make_shares` is strictly below the prime, for every behaviour of the random
source.  But `shamir.randint(num)` is `secrets.randbelow(num + 1)`, whose
outcomes are `0..num` inclusive: with the draw `r = 7` and prime `7` the
sampled coefficient is exactly `7`, not `< 7`. -/
theorem C6_coeff_counterexample :
    7 ∈ shamir_coeffs 2 7 (fun _ => 7) ∧ ¬ (7 < 7) := by decide

/-- C6 amended: every random polynomial coefficient drawn by `make_shares`
lies in the closed interval `[0, p]` (the draw is `randbelow(p + 1)`), for
every behaviour of the random source. -/
theorem C6_coeffs_le_prime (minimum prime : ℕ) (r : ℕ → ℕ) (c : ℕ)
    (hc : c ∈ shamir_coeffs minimum prime r) : c ≤ prime := by
  unfold shamir_coeffs at hc
  rcases List.mem_map.mp hc with ⟨j, _, hj⟩
  subst hj
  unfold Shamir.randint
  have : r j % (prime + 1) < prime + 1 := Nat.mod_lt _ (Nat.succ_pos prime)
  omega

theorem C6_coeffs_le_prime_witness :
    7 ∈ shamir_coeffs 2 7 (fun _ => 7) ∧ 7 ≤ 7 :=
  ⟨by decide, C6_coeffs_le_prime 2 7 (fun _ => 7) 7 (by decide)⟩

/-- C10: for every prime `p` and all integers `num`, `den` with `den` not
divisible by `p`, `den * _divmod(num, den, p) ≡ num (mod p)`: the
extended-Euclidean helper implements modular division, which is what makes
the Lagrange interpolation in `interpolate` correct. -/
theorem C10_divmod_modular_division (num den : ℤ) (p : ℕ) (hp : p.Prime)
    (hden : ¬ (p : ℤ) ∣ den) :
    den * divmod_sh num den p ≡ num [ZMOD (p : ℤ)] :=
  divmod_correct num den p hp hden

theorem C10_divmod_modular_division_witness :
    Nat.Prime 5 ∧ ¬ (5 : ℤ) ∣ 2 ∧ (2 * divmod_sh 3 2 5 ≡ 3 [ZMOD (5 : ℤ)]) :=
  ⟨by norm_num, by omega, C10_divmod_modular_division 3 2 5 (by norm_num) (by omega)⟩

/-- C2 counterexample: the claim quantifies over *every* prime `p`.  For
`p = 3` (prime), secret byte string `[2]` (integer value `2 < 3`),
threshold `k = 2` with the possible zero draw for the random coefficient, and
the 2-element subset `C = {1, 4}` of `{1..9}`: the share indices `1` and `4`
collide mod 3, the interpolation denominators are divisible by 3, and
`interpolate` returns `0`, not the secret `2`. -/
theorem C2_interpolation_counterexample :
    Nat.Prime 3 ∧
      make_shares 2 9 3 [2] 1 (fun _ => 0) =
        [[2], [2], [2], [2], [2], [2], [2], [2], [2]] ∧
      interpolate 3 [1, 4]
        [(from_bytes ((make_shares 2 9 3 [2] 1 (fun _ => 0)).getD 0 []) : ℤ),
         (from_bytes ((make_shares 2 9 3 [2] 1 (fun _ => 0)).getD 3 []) : ℤ)] = 0 ∧
      (0 : ℤ) ≠ (from_bytes [2] : ℤ) := by
  refine ⟨by norm_num, by decide, by decide, by decide⟩

/-- C2 amended: for every prime `p` *greater than `slot_max`*, every secret
whose integer value is below `p` and fits the serialization width
(`p ≤ 256 ^ data_len`), every threshold `k = minimum ≥ 1`, every behaviour of
the random coefficient source, and every `k`-element subset `C` of the share
indexes `{1..slot_max}`, Lagrange interpolation at `x = 0` over the shares of
`make_shares` restricted to `C` recovers the secret.  (The original claim
quantified over *every* prime; the counterexample above shows it fails when
`p ≤ slot_max` because share indexes can collide mod `p`.) -/
theorem C2_interpolation_recovers (p : ℕ) (hp : p.Prime) (slot_max minimum data_len : ℕ)
    (secret : Bytes) (r : ℕ → ℕ) (C : List ℕ)
    (hsm : slot_max < p)
    (hsec : from_bytes secret < p)
    (hC : C.Nodup) (hlen : C.length = minimum) (hmin : 1 ≤ minimum)
    (hmem : ∀ i ∈ C, 1 ≤ i ∧ i ≤ slot_max)
    (hdl : p ≤ 256 ^ data_len) :
    Shamir.interpolate p (C.map (fun i : ℕ => (i : ℤ)))
      (C.map (fun i : ℕ =>
        (from_bytes ((Shamir.make_shares minimum slot_max p secret data_len r).getD (i - 1) [])
          : ℤ)))
    = (from_bytes secret : ℤ) := by
  haveI : Fact p.Prime := ⟨hp⟩
  set coeffs := Shamir.shamir_coeffs minimum p r with hcoeffs
  set l : List ℕ := from_bytes secret :: coeffs with hl
  set f : Polynomial (ZMod p) := listPoly (l.map (fun a : ℕ => (a : ZMod p))) with hf
  set vals : List ℤ := C.map (fun i : ℕ =>
    (from_bytes ((Shamir.make_shares minimum slot_max p secret data_len r).getD (i - 1) [])
      : ℤ)) with hvals_def
  have hclen : coeffs.length = minimum - 1 := by
    rw [hcoeffs, Shamir.shamir_coeffs, List.length_map, List.length_range]
  have hdeg : f.degree < (C.length : WithBot ℕ) := by
    have h1 := listPoly_degree_lt (l.map (fun a : ℕ => (a : ZMod p)))
    rw [List.length_map, hl, List.length_cons, hclen] at h1
    rw [hf, hlen]
    have h2 : minimum - 1 + 1 = minimum := by omega
    rwa [h2] at h1
  have hshare : ∀ i : ℕ, 1 ≤ i → i ≤ slot_max →
      ((from_bytes ((Shamir.make_shares minimum slot_max p secret data_len r).getD (i - 1) [])
        : ℤ) : ZMod p) = f.eval ((i : ℕ) : ZMod p) := by
    intro i h1 h2
    have hilt : i - 1 < slot_max := by omega
    have hibase : (Shamir.make_shares_int minimum slot_max p secret r).getD (i - 1) 0
        = Shamir.horner_mod l.reverse i p := by
      simp only [Shamir.make_shares_int]
      rw [getD_range_map _ _ _ hilt]
      have h3 : i - 1 + 1 = i := by omega
      rw [h3, hl, hcoeffs]
    have hglen : i - 1 < (Shamir.make_shares_int minimum slot_max p secret r).length := by
      simp only [Shamir.make_shares_int, List.length_map, List.length_range]
      exact hilt
    have hbytes : (Shamir.make_shares minimum slot_max p secret data_len r).getD (i - 1) []
        = to_bytes_le (Shamir.horner_mod l.reverse i p) data_len := by
      rw [Shamir.make_shares, getD_map_of_lt _ _ _ hglen [] 0, hibase]
    rw [hbytes, from_bytes_to_bytes_le,
      Nat.mod_eq_of_lt (lt_of_lt_of_le (horner_mod_lt p i hp.pos l.reverse) hdl)]
    push_cast
    rw [horner_mod_cast]
  have hvals : ∀ c, c < C.length →
      ((vals.getD c 0 : ℤ) : ZMod p) = f.eval ((C.getD c 0 : ℕ) : ZMod p) := by
    intro c hc
    have hcm := hmem (C.getD c 0) (getD_mem C c 0 hc)
    rw [hvals_def, getD_map_of_lt _ _ _ hc 0 0]
    exact hshare (C.getD c 0) hcm.1 hcm.2
  obtain ⟨h0, h1, h2⟩ :=
    interpolate_recovers p hp slot_max C vals f hC hmem hsm hdeg hvals
  have hf0 : f.eval 0 = ((from_bytes secret : ℕ) : ZMod p) := by
    rw [hf, listPoly_eval, hl]
    simp
  rw [hf0] at h2
  have h3 : Shamir.interpolate p (C.map (fun i : ℕ => (i : ℤ))) vals
      ≡ ((from_bytes secret : ℕ) : ℤ) [ZMOD (p : ℤ)] := by
    rw [← ZMod.intCast_eq_intCast_iff]
    rw [h2]
    push_cast
    rfl
  have h4 := h3
  unfold Int.ModEq at h4
  rw [Int.emod_eq_of_lt h0 h1,
    Int.emod_eq_of_lt (by positivity) (by exact_mod_cast hsec)] at h4
  exact_mod_cast h4

theorem C2_interpolation_recovers_witness :
    Nat.Prime 11 ∧
    Shamir.interpolate 11 (([2, 5] : List ℕ).map (fun i : ℕ => (i : ℤ)))
      (([2, 5] : List ℕ).map (fun i : ℕ =>
        (from_bytes ((Shamir.make_shares 2 9 11 [5] 1 (fun _ => 3)).getD (i - 1) []) : ℤ)))
      = (from_bytes [5] : ℤ) :=
  ⟨by norm_num,
   C2_interpolation_recovers 11 (by norm_num) 9 2 1 [5] (fun _ => 3) [2, 5]
     (by decide) (by decide) (by decide) (by decide) (by decide)
     (by decide) (by norm_num)⟩

/-- C7: every write event in the I/O trace of any `write_slot` call on a
vault built by `mk_keylocker` lies entirely within the slot area
`[salt_len, salt_len + area)` — across ghost scrubbing, replicated mode and
shamir mode, on success and on failure alike — and consequently, whenever the
call returns a write list, applying it leaves every byte below `salt_len`
(head salt) and every byte from `salt_len + area` on (tail salt and storage)
unchanged. -/
theorem C7_writes_within_slot_area (env : Env) (o : WriteOracle) (fs : ℕ) (ph : Bytes) (sm : Bool)
    (kl : KeyLocker) (f : FileFn) (data : Bytes)
    (res : Option (List (ℕ × Bytes))) (tr : List IOEvent)
    (hmk : mk_keylocker fs ph sm = some kl)
    (h : write_slot env o kl f data = (res, tr)) :
    (∀ off d, IOEvent.write off d ∈ tr →
      kl.b.salt_len ≤ off ∧ off + d.length ≤ kl.b.salt_len + kl.b.area) ∧
    ∀ ws, res = some ws → ∀ x, (x < kl.b.salt_len ∨ kl.b.salt_len + kl.b.area ≤ x) →
      apply_writes f ws x = f x := by
  obtain ⟨hsb, -, -⟩ := mk_keylocker_spec fs ph sm kl hmk
  obtain ⟨hns, harea, -, -, -, -, -⟩ := set_boundaries_spec fs sm kl.b hsb
  have harea2 : kl.b.num_slots * 64 + 192 ≤ kl.b.area := by
    simp only [slot_len, max_len] at harea
    omega
  simp only [write_slot] at h
  set kl2 := if kl.b.shamir_mode = true ∧ data.length + ABA.header ≥ max_shamir then
      { kl with b := { kl.b with shamir_mode := false } } else kl with hkl2
  have hsalt2 : kl2.b.salt_len = kl.b.salt_len := by
    rw [hkl2]
    split_ifs <;> rfl
  have hns2 : kl2.b.num_slots = kl.b.num_slots := by
    rw [hkl2]
    split_ifs <;> rfl
  have hbound : ∀ w : ℕ × Bytes, (∃ seg, w.1 = kl2.get_offset seg) → w.2.length ≤ 256 →
      kl.b.salt_len ≤ w.1 ∧ w.1 + w.2.length ≤ kl.b.salt_len + kl.b.area := by
    rintro w ⟨seg, hseg⟩ hwlen
    have hpos2 : 0 < kl2.b.num_slots := by
      rw [hns2]
      omega
    have hb := get_offset_bounds kl2 seg hpos2
    rw [hns2, hsalt2] at hb
    rw [hseg]
    omega
  cases hmd : (if kl2.b.shamir_mode = true then
      ABA.mk_new env (encrypt_data env data kl2.get_key_sh.1 kl2.get_key_sh.2) slot_len []
    else ABA.mk_new env data slot_len []) with
  | none =>
      simp only [hmd] at h
      rw [Prod.mk.injEq] at h
      rw [← h.1, ← h.2]
      refine ⟨fun off d hd => absurd hd (by simp), fun ws hws => Option.noConfusion hws⟩
  | some d0 =>
      simp only [hmd] at h
      have hd0 : d0.endPos ≤ d0.arr.length ∧ d0.arr.length ≤ 256 ∧
          (kl2.b.shamir_mode = true → d0.arr.length ≤ 128) := by
        by_cases hsm2 : kl2.b.shamir_mode = true
        · rw [if_pos hsm2] at hmd
          have hs := mk_new_64_spec env _ [] d0 hmd
          rw [encrypt_data_length] at hs
          have hdata : data.length + ABA.header < max_shamir := by
            by_cases hc : kl.b.shamir_mode = true ∧ data.length + ABA.header ≥ max_shamir
            · rw [hkl2, if_pos hc] at hsm2
              exact absurd hsm2 (by simp)
            · by_cases hsm0 : kl.b.shamir_mode = true
              · have hms : max_shamir = 128 := rfl
                have hnb : ¬ data.length + ABA.header ≥ max_shamir := fun hb => hc ⟨hsm0, hb⟩
                omega
              · rw [hkl2, if_neg hc] at hsm2
                exact absurd hsm2 hsm0
          refine ⟨hs.2.2.2.2.1, hs.2.2.2.2.2, fun _ => ?_⟩
          rw [hs.2.2.2.1]
          have hms : max_shamir = 128 := rfl
          have hh : ABA.header = 9 := rfl
          exact chunk_up_le_128 _ (by omega)
        · rw [if_neg hsm2] at hmd
          have hs := mk_new_64_spec env data [] d0 hmd
          exact ⟨hs.2.2.2.2.1, hs.2.2.2.2.2, fun hx => absurd hx hsm2⟩
      set d1 := d0.scramble (rand_bytes o.scramble1 0 (d0.arr.length - d0.endPos)) with hd1
      have hd1len : d1.arr.length = d0.arr.length := scramble_length _ _ hd0.1
      set ghost := read_slot env o.ghost kl2 f with hg
      set scrub_ws := (if ghost.1 ≠ [] then (List.range kl2.b.slot_max).map
          (fun seg => (kl2.get_offset seg, rand_bytes (o.scrub seg) 0 slot_len)) else [])
        with hscrub
      have hscrub_mem : ∀ w ∈ scrub_ws, (∃ seg, w.1 = kl2.get_offset seg) ∧ w.2.length ≤ 256 := by
        intro w hw
        rw [hscrub] at hw
        split_ifs at hw
        · rcases List.mem_map.mp hw with ⟨seg, _, hseg⟩
          rw [← hseg]
          refine ⟨⟨seg, rfl⟩, ?_⟩
          rw [rand_bytes_length]
          norm_num [slot_len]
        · simp at hw
      have hghostw : ∀ off d, IOEvent.write off d ∈ ghost.2 → False := by
        intro off d hd
        rw [hg] at hd
        exact read_slot_no_writes _ _ _ _ _ _ hd
      have hmapw : ∀ (l : List (ℕ × Bytes)) off d,
          IOEvent.write off d ∈ l.map (fun w => IOEvent.write w.1 w.2) → (off, d) ∈ l := by
        intro l off d hd
        rcases List.mem_map.mp hd with ⟨w, hw, hweq⟩
        injection hweq with h1 h2
        rw [← h1, ← h2]
        exact hw
      cases hmw : (if kl2.b.shamir_mode = true then write_shamir env o kl2 d1
          else write_normal env o kl2 d1) with
      | none =>
          simp only [hmw] at h
          rw [Prod.mk.injEq] at h
          rw [← h.1, ← h.2]
          refine ⟨?_, fun ws hws => Option.noConfusion hws⟩
          intro off d hd
          rcases List.mem_append.mp hd with h1 | h2
          · exact absurd h1 (fun hh => hghostw off d hh)
          · have hm := hscrub_mem _ (hmapw _ _ _ h2)
            exact hbound (off, d) hm.1 hm.2
      | some ws2 =>
          simp only [hmw] at h
          have hmode : ∀ w ∈ ws2, (∃ seg, w.1 = kl2.get_offset seg) ∧ w.2.length ≤ 256 := by
            by_cases hsm2 : kl2.b.shamir_mode = true
            · rw [if_pos hsm2] at hmw
              intro w hw
              have hws := write_shamir_writes env o kl2 d1 ws2
                (by rw [hd1]; show d0.endPos ≤ _; rw [scramble_length _ _ hd0.1]; exact hd0.1)
                hmw w hw
              exact ⟨hws.1, le_trans hws.2 (by rw [hd1len]; have := hd0.2.2 hsm2; omega)⟩
            · rw [if_neg hsm2] at hmw
              intro w hw
              have hws := write_normal_writes env o kl2 d1 ws2 hmw w hw
              exact ⟨hws.1, by rw [hws.2, hd1len]; exact hd0.2.1⟩
          have htrw : ∀ off d, IOEvent.write off d ∈
              (ghost.2 ++ scrub_ws.map (fun w => IOEvent.write w.1 w.2) ++
                ws2.map (fun w => IOEvent.write w.1 w.2) ++
                (read_slot env o.verify kl2 (apply_writes (apply_writes f scrub_ws) ws2)).2) →
              kl.b.salt_len ≤ off ∧ off + d.length ≤ kl.b.salt_len + kl.b.area := by
            intro off d hd
            rcases List.mem_append.mp hd with h123 | h4
            · rcases List.mem_append.mp h123 with h12 | h3
              · rcases List.mem_append.mp h12 with h1 | h2
                · exact absurd h1 (fun hh => hghostw off d hh)
                · have hm := hscrub_mem _ (hmapw _ _ _ h2)
                  exact hbound (off, d) hm.1 hm.2
              · have hm := hmode _ (hmapw _ _ _ h3)
                exact hbound (off, d) hm.1 hm.2
            · exact absurd h4 (fun hh => read_slot_no_writes _ _ _ _ _ _ hh)
          have hwlist : ∀ w ∈ scrub_ws ++ ws2, kl.b.salt_len ≤ w.1 ∧
              w.1 + w.2.length ≤ kl.b.salt_len + kl.b.area := by
            intro w hw
            rcases List.mem_append.mp hw with h1 | h2
            · have hm := hscrub_mem w h1
              exact hbound w hm.1 hm.2
            · have hm := hmode w h2
              exact hbound w hm.1 hm.2
          split_ifs at h with hvf
          · rw [Prod.mk.injEq] at h
            rw [← h.1, ← h.2]
            refine ⟨htrw, ?_⟩
            intro ws hws x hx
            injection hws with hws
            rw [← hws]
            apply apply_writes_frame
            intro w hw
            have hb := hwlist w hw
            omega
          · rw [Prod.mk.injEq] at h
            rw [← h.1, ← h.2]
            exact ⟨htrw, fun ws hws => Option.noConfusion hws⟩

theorem C7_writes_within_slot_area_witness :
    mk_keylocker 1000 phashW true = some klW ∧
    (write_slot trivEnv woW klW fileW [42]).1.isSome = true ∧
    ∀ off d, IOEvent.write off d ∈ trW →
      klW.b.salt_len ≤ off ∧ off + d.length ≤ klW.b.salt_len + klW.b.area :=
  ⟨mk_klW, by decide,
   (C7_writes_within_slot_area trivEnv woW 1000 phashW true klW fileW [42]
     (write_slot trivEnv woW klW fileW [42]).1 trW mk_klW rfl).1⟩

/-- C5 counterexample: the claim says VBA construction (raw=False) succeeds
for every payload of length up to 255.  A 248-byte payload is rejected: the
capacity is rounded up to `chunk_up(248 + 9, 64) = 320`, and
`320 - 9 = 311 > 255` raises `ValueError`. -/
theorem C5_vba_counterexample :
    (List.replicate 248 0 : Bytes).length ≤ 255 ∧
      ABA.mk_new trivEnv (List.replicate 248 0) 64 [] = none := by
  constructor
  · simp
  · simp only [ABA.mk_new, List.length_replicate, chunk_up, ABA.header, ABA.chk_len]
    norm_num

/-- C5 amended: with the default capacity 64, `ABA.__init__(src, raw=False)`
yields a usable envelope exactly when `1 ≤ len(src) ≤ 247`: for `len ≥ 248`
the rounded-up capacity exceeds the 255-byte length limit and `__init__`
raises `ValueError`; for the empty payload `__init__` returns but leaves the
buffer unset, so every subsequent operation on the object fails. -/
theorem C5_vba_succeeds_iff (env : Env) (src : Bytes) :
    (ABA.mk_new env src 64 []).isSome = true ↔ 1 ≤ src.length ∧ src.length ≤ 247 := by
  simp only [ABA.mk_new, ABA.header, ABA.chk_len, chunk_up]
  split_ifs with h0 hbig hc1 hc2 <;> simp <;> omega

/-- C4 counterexample: the claim says each per-slot quantity gets exactly
`N = slot_max` slices; but `set_phash` constructs the tracker with
`ByteTracker(len(phash), slot_max + 1)`, so each per-slot reservation yields
`slot_max + 1` slices (18 for `slot_max = 17`, here over an 8 KiB hash). -/
theorem C4_tracker_counterexample :
    (set_phash_layout 8192 17).map (fun tr => tr.key.length) = some 18 ∧ (18 : ℕ) ≠ 17 := by
  constructor
  · decide
  · decide

/-- C4 amended: `set_phash` reserves contiguous disjoint slices of phash in
the order shamir_key (32 bytes, one slice), per-slot keys (32 each),
shamir_vector (16, one), per-slot IVs (16 each), prime seed (192, one),
per-slot offsets (16 each) — but with `slot_max + 1` slices (one spare) for
each per-slot quantity, not `slot_max`.  The slice bounds below exhibit the
order, the contiguity and the disjointness explicitly; the reservation
succeeds only when the final cursor stays below the hash length. -/
theorem C4_tracker_layout (hash_len slot_max : ℕ) (tr : Tracker)
    (h : set_phash_layout hash_len slot_max = some tr) :
    tr.shamir_key = Slice.mk 0 32 ∧
      tr.key.length = slot_max + 1 ∧
      (∀ i < slot_max + 1,
        tr.key.getD i (Slice.mk 0 0) = Slice.mk (32 + 32 * i) (64 + 32 * i)) ∧
      tr.shamir_vector = Slice.mk (64 + 32 * slot_max) (80 + 32 * slot_max) ∧
      tr.vector.length = slot_max + 1 ∧
      (∀ i < slot_max + 1,
        tr.vector.getD i (Slice.mk 0 0) =
          Slice.mk (80 + 32 * slot_max + 16 * i) (96 + 32 * slot_max + 16 * i)) ∧
      tr.prime = Slice.mk (96 + 48 * slot_max) (288 + 48 * slot_max) ∧
      tr.offset.length = slot_max + 1 ∧
      (∀ i < slot_max + 1,
        tr.offset.getD i (Slice.mk 0 0) =
          Slice.mk (288 + 48 * slot_max + 16 * i) (304 + 48 * slot_max + 16 * i)) ∧
      304 + 64 * slot_max + 2 ≤ hash_len := by
  simp only [set_phash_layout] at h
  split at h
  case _ => exact absurd h (by simp)
  case _ r1 hr1 =>
  split at h
  case _ => exact absurd h (by simp)
  case _ r2 hr2 =>
  split at h
  case _ => exact absurd h (by simp)
  case _ r3 hr3 =>
  split at h
  case _ => exact absurd h (by simp)
  case _ r4 hr4 =>
  split at h
  case _ => exact absurd h (by simp)
  case _ r5 hr5 =>
  split at h
  case _ => exact absurd h (by simp)
  case _ r6 hr6 =>
  obtain ⟨e1a, e1b, e1c⟩ := Bitfun.reserve_spec _ _ _ _ hr1
  rw [e1b] at hr2
  obtain ⟨e2a, e2b, e2c⟩ := Bitfun.reserve_spec _ _ _ _ hr2
  rw [e2b] at hr3
  obtain ⟨e3a, e3b, e3c⟩ := Bitfun.reserve_spec _ _ _ _ hr3
  rw [e3b] at hr4
  obtain ⟨e4a, e4b, e4c⟩ := Bitfun.reserve_spec _ _ _ _ hr4
  rw [e4b] at hr5
  obtain ⟨e5a, e5b, e5c⟩ := Bitfun.reserve_spec _ _ _ _ hr5
  rw [e5b] at hr6
  obtain ⟨e6a, e6b, e6c⟩ := Bitfun.reserve_spec _ _ _ _ hr6
  simp only [Option.getD_some, Option.getD_none] at e1a e1c e2a e2c e3a e3c e4a e4c e5a e5c e6a e6c
  injection h with h
  subst h
  refine ⟨?_, ?_, ?_, ?_, ?_, ?_, ?_, ?_, ?_, by omega⟩
  · rw [e1a, getD_range_map _ _ _ (by omega)] <;> simp only [Slice.mk.injEq] <;> omega
  · rw [e2a]
    simp
  · intro i hi
    rw [e2a, getD_range_map _ _ _ hi] <;> simp only [Slice.mk.injEq] <;> omega
  · rw [e3a, getD_range_map _ _ _ (by omega)] <;> simp only [Slice.mk.injEq] <;> omega
  · rw [e4a]
    simp
  · intro i hi
    rw [e4a, getD_range_map _ _ _ hi] <;> simp only [Slice.mk.injEq] <;> omega
  · rw [e5a, getD_range_map _ _ _ (by omega)] <;> simp only [Slice.mk.injEq] <;> omega
  · rw [e6a]
    simp
  · intro i hi
    rw [e6a, getD_range_map _ _ _ hi] <;> simp only [Slice.mk.injEq] <;> omega

theorem C4_tracker_layout_witness :
    set_phash_layout 1400 17 = some trackerW ∧ trackerW.key.length = 17 + 1 :=
  ⟨by decide, (C4_tracker_layout 1400 17 trackerW (by decide)).2.1⟩

/-- Shared bound for `get_slot_count`: whenever it terminates with
`1 ≤ target ≤ slot_max` and `3 ≤ slot_max`, the result is in
`[1, slot_max]`. -/
theorem get_slot_count_bounds (o : SlotCountOracle) (slot_max target : ℕ)
    (h1 : 1 ≤ target) (h2 : target ≤ slot_max) (h3 : 3 ≤ slot_max) :
    ∀ (fuel n : ℕ), get_slot_count o slot_max target fuel = some n →
      1 ≤ n ∧ n ≤ slot_max := by
  intro fuel
  induction fuel with
  | zero => intro n h; simp [get_slot_count] at h
  | succ fuel ih =>
      intro n h
      unfold get_slot_count at h
      split_ifs at h with hb1 hb2
      · injection h with h; omega
      · injection h with h
        unfold randint_incl at h
        have : o.uni fuel % (slot_max - 1 - 1 + 1) < slot_max - 1 - 1 + 1 :=
          Nat.mod_lt _ (by omega)
        omega
      · set v : ℚ := scale_value (o.logn fuel * 1 * target) target with hv
        by_cases hgt : v > slot_max
        · rw [if_pos hgt] at h
          exact ih n h
        · rw [if_neg hgt] at h
          by_cases hlt : v < 1
          · rw [if_pos hlt] at h
            injection h with h
            omega
          · rw [if_neg hlt] at h
            injection h with h
            have hge1 : (1 : ℚ) ≤ v := not_lt.mp hlt
            have hle : v ≤ (slot_max : ℚ) := not_lt.mp hgt
            have hf1 : (1 : ℤ) ≤ ⌊v⌋ := by
              rw [Int.le_floor]
              exact_mod_cast hge1
            have hf2 : ⌊v⌋ ≤ (slot_max : ℤ) := by
              have hfl : (⌊v⌋ : ℚ) ≤ v := Int.floor_le v
              have : (⌊v⌋ : ℚ) ≤ (slot_max : ℚ) := le_trans hfl hle
              exact_mod_cast this
            omega

/-- C9: whenever `get_slot_count(slot_target)` terminates (for a vault whose
boundaries were accepted by `set_boundaries`), the result lies in the closed
interval `[1, slot_max]` — never 0, never above `slot_max`, so at least one
slot is always activated on write. -/
theorem C9_slot_count_in_range (fs : ℕ) (sm : Bool) (b : Boundaries)
    (hb : set_boundaries fs sm = some b) (o : SlotCountOracle) (fuel n : ℕ)
    (h : get_slot_count o b.slot_max b.slot_target fuel = some n) :
    1 ≤ n ∧ n ≤ b.slot_max := by
  obtain ⟨-, -, hmax, htgt, -, -, -⟩ := set_boundaries_spec fs sm b hb
  exact get_slot_count_bounds o b.slot_max b.slot_target htgt (by omega) (by omega) fuel n h

theorem C9_slot_count_in_range_witness :
    set_boundaries 1000 false = some bW ∧
      get_slot_count scW bW.slot_max bW.slot_target 1 = some 8 ∧
      1 ≤ 8 ∧ 8 ≤ bW.slot_max :=
  ⟨by decide, by decide,
    (C9_slot_count_in_range 1000 false bW (by decide) scW 1 8 (by decide)).1,
    (C9_slot_count_in_range 1000 false bW (by decide) scW 1 8 (by decide)).2⟩

/-- C8: the derivation of per-slot keys and IVs, the Shamir prime and the
candidate slot offsets is a pure function of phash: two `KeyLocker` instances
constructed over the same file size, phash and mode return identical results
from `get_key`, `get_prime` and `get_offset` — and `get_prime` consumes
exactly the reserved prime-seed slice of phash, so `crypto.get_prime` sees
the same `(length, seed)` pair (and, being deterministic in the embedding
exactly because the OFB generator it builds depends only on that seed,
returns the same prime). -/
theorem C8_derivation_deterministic (env : Env) (fs : ℕ) (ph : Bytes) (sm : Bool)
    (kl1 kl2 : KeyLocker) (h1 : mk_keylocker fs ph sm = some kl1)
    (h2 : mk_keylocker fs ph sm = some kl2) :
    (∀ seg, kl1.get_key seg = kl2.get_key seg) ∧
      kl1.get_key_sh = kl2.get_key_sh ∧
      (∀ n, kl1.get_prime env n = kl2.get_prime env n) ∧
      (∀ seg, kl1.get_offset seg = kl2.get_offset seg) ∧
      (∀ n, kl1.get_prime env n = Crypto.get_prime env n (slice_of ph kl1.tracker.prime)) := by
  have hk : kl1 = kl2 := by
    rw [h1] at h2
    exact Option.some_injective _ h2
  subst hk
  obtain ⟨-, hph, -⟩ := mk_keylocker_spec fs ph sm kl1 h1
  subst hph
  exact ⟨fun _ => rfl, rfl, fun _ => rfl, fun _ => rfl, fun _ => rfl⟩

theorem C8_derivation_deterministic_witness :
    mk_keylocker 1000 phashW true = some klW ∧
      klW.get_prime trivEnv 64 = Crypto.get_prime trivEnv 64 (slice_of phashW klW.tracker.prime) :=
  ⟨mk_klW,
    (C8_derivation_deterministic trivEnv 1000 phashW true klW klW mk_klW mk_klW).2.2.2.2 64⟩

end KeyLockerSpec
